import Mathlib

/-!
# GrpcMasterService: the asynchronous dispatch core

A shallow embedding of `tensorflow/core/distributed_runtime/rpc/grpc_master_service.cc`.

The service object is modelled by explicit state passing over a `World`: the `Call`
objects (slots) allocated so far, the `CallOptions` objects (cancellation tokens)
allocated so far, the completion notifiers the `Master` has retained, and the trace of
operations performed on the collaborators (`Call`, `CallOptions`, `Master`, the
completion queue).  The six handlers and `HandleRPCsLoop` are transcribed statement by
statement.  The collaborators whose code is not part of the translated sources
(`Call`, `CallOptions`, `Master`, `ToGrpcStatus`, the transport) are either parameters
(`Env`) or small definitions marked as modelled from the specification.

The C++ lambdas are defunctionalised: `Done` is the completion notifier passed to the
`Master`, and a registered cancel callback is represented by the `CallOptions` object it
captured.
-/

namespace tensorflow

/-! ## Data model -/

/-- The six RPC methods of `grpc::MasterService`. -/
inductive Method
  | CreateSession
  | ExtendSession
  | RunStep
  | CloseSession
  | ListDevices
  | Reset
deriving DecidableEq, Repr

/-- Identity of a `Call` object (a call slot): its allocation index. -/
abbrev CallId := Nat

/-- Identity of a `CallOptions` object (a cancellation token): its allocation index. -/
abbrev OptsId := Nat

/-- A `tensorflow::Status`: error code (0 is OK) and message. -/
structure Status where
  code : Nat
  error_message : String
deriving DecidableEq, Repr

/-- A `::grpc::Status`: status code (0 is OK) and message. -/
structure GrpcStatus where
  code : Nat
  error_message : String
deriving DecidableEq, Repr

/-- Modelled from the spec: the lifecycle state of a Call Slot (the `Call` class of
`grpc_call.h` is not among the translated sources).  Awaiting: registered with the
transport, no call yet.  Active: call received.  Completed: response sent. -/
inductive SlotState
  | Awaiting
  | Active
  | Completed
deriving DecidableEq, Repr

/-- Modelled from the spec: a Call Slot, the state of one `Call` object (`grpc_call.h`
is not among the translated sources).  `cancel_callback` holds the registered cancel
callback, represented by the `CallOptions` object the lambda
`[call_opts]() { call_opts->StartCancel(); }` captured. -/
structure Call where
  method : Method
  state : SlotState
  cancel_callback : Option OptsId
deriving DecidableEq, Repr

/-- Modelled from the spec: a cancellation token, the state of one `CallOptions` object
(`call_options.h` is not among the translated sources).  `cancelled` is monotonic;
`deleted` records that the object has been freed. -/
structure CallOptions where
  cancelled : Bool
  deleted : Bool
deriving DecidableEq, Repr

/-- The completion notifier a handler passes to the `Master`, defunctionalised.
`respond call` is the lambda
`[call](const Status& status) { call->SendResponse(ToGrpcStatus(status)); }`
of the five non-cancellable handlers; `runStep call call_opts` is the lambda
`[call, call_opts](const Status& status) { call->ClearCancelCallback();
delete call_opts; call->SendResponse(ToGrpcStatus(status)); }` of `RunStepHandler`. -/
inductive Done
  | respond (call : CallId)
  | runStep (call : CallId) (call_opts : OptsId)
deriving DecidableEq, Repr

/-- The call captured by a completion notifier. -/
def Done.call : Done → CallId
  | .respond call => call
  | .runStep call _ => call

/-- Modelled from the spec: a Dispatch Event token, `UntypedCall<Service>::Tag`
(`grpc_call.h` is not among the translated sources).  It correlates one readiness
notification to one Call Slot and the action to run: either "a call slot became ready"
(with the method, hence the handler, the slot was enqueued for) or "a call slot
finished". -/
inductive Tag
  | RequestReceived (method : Method) (call : CallId)
  | ResponseSent (call : CallId)
deriving DecidableEq, Repr

/-- One operation performed by the service on a collaborator, in program order. -/
inductive Op
  /-- The call `Call<...>::EnqueueRequest(...)` for `method`, creating slot `call`. -/
  | EnqueueRequest (method : Method) (call : CallId)
  /-- The expression `new CallOptions`. -/
  | NewCallOptions (call_opts : OptsId)
  /-- The call `call->SetCancelCallback([call_opts]() { call_opts->StartCancel(); })`. -/
  | SetCancelCallback (call : CallId) (call_opts : OptsId)
  /-- The call `master_impl_->method([call_opts,] &call->request, &call->response, done)`. -/
  | MasterCall (method : Method) (call : CallId) (call_opts : Option OptsId) (done : Done)
  /-- The completion notifier of `call` is entered with `status`. -/
  | Notified (call : CallId) (status : Status)
  /-- The call `call->ClearCancelCallback()`. -/
  | ClearCancelCallback (call : CallId)
  /-- The statement `delete call_opts`. -/
  | DeleteCallOptions (call_opts : OptsId)
  /-- The call `call->SendResponse(status)`. -/
  | SendResponse (call : CallId) (status : GrpcStatus)
  /-- The call `call_opts->StartCancel()`. -/
  | StartCancel (call_opts : OptsId)
  /-- The call `cq_->Next(&tag, &ok)`: `some (tag, ok)` when it returned true, `none` on shutdown. -/
  | Next (event : Option (Tag × Bool))
  /-- The check `CHECK(ok)` failed. -/
  | CheckFailed
  /-- The call `callback_tag->OnCompleted(this, ok)`. -/
  | OnCompleted (tag : Tag) (ok : Bool)
  /-- The statement `delete callback_tag`. -/
  | DeleteTag (tag : Tag)
deriving DecidableEq, Repr

/-- The state of the service and of the objects it owns or has handed out. -/
structure World where
  /-- The `Call` objects created so far, by allocation index. -/
  calls : List Call
  /-- The `CallOptions` objects created so far, by allocation index. -/
  call_opts : List CallOptions
  /-- The completion notifiers the `Master` has accepted and not yet invoked. -/
  pending : List Done
  /-- The operations performed so far, oldest first. -/
  trace : List Op
deriving DecidableEq, Repr

/-- The service right after construction: no slot, no token, nothing done. -/
def World.empty : World :=
  { calls := [], call_opts := [], pending := [], trace := [] }

/-- The collaborators whose code is outside the translated sources, as parameters.
`ToGrpcStatus` is the conversion of `grpc_util.h`.  `facade method call` is the
behaviour of the `Master` operation for that call: `some status` when it invokes the
completion notifier with `status` before the operation returns, `none` when it retains
the notifier (to invoke it later, or never). -/
structure Env where
  ToGrpcStatus : Status → GrpcStatus
  facade : Method → CallId → Option Status

/-- Append one operation to the trace. -/
def World.emit (w : World) (op : Op) : World :=
  { w with trace := w.trace ++ [op] }

/-- Apply `f` to the object at index `i`, if there is one. -/
def updateAt {α : Type} (f : α → α) : Nat → List α → List α
  | _, [] => []
  | 0, a :: as => f a :: as
  | i + 1, a :: as => a :: updateAt f i as

/-! ## Collaborators -/

/-- Modelled from the spec: `Call<...>::EnqueueRequest` (`grpc_call.h` is not among the
translated sources), the Method Acceptor's `Arm()`: creates a new Call Slot in Awaiting
state, registered with the transport for the next incoming call of `method`. -/
def Call.EnqueueRequest (method : Method) (w : World) : World :=
  { w with
    calls := w.calls ++ [{ method := method, state := .Awaiting, cancel_callback := none }]
    trace := w.trace ++ [.EnqueueRequest method w.calls.length] }

/-- Modelled from the spec: `Call::SetCancelCallback` (`grpc_call.h` is not among the
translated sources): registers the cancel callback on the slot. -/
def Call.SetCancelCallback (call : CallId) (call_opts : OptsId) (w : World) : World :=
  { w with
    calls := updateAt (fun c => { c with cancel_callback := some call_opts }) call w.calls
    trace := w.trace ++ [.SetCancelCallback call call_opts] }

/-- Modelled from the spec: `Call::ClearCancelCallback` (`grpc_call.h` is not among the
translated sources): deregisters the slot's cancel callback. -/
def Call.ClearCancelCallback (call : CallId) (w : World) : World :=
  { w with
    calls := updateAt (fun c => { c with cancel_callback := none }) call w.calls
    trace := w.trace ++ [.ClearCancelCallback call] }

/-- Modelled from the spec: `Call::SendResponse` (`grpc_call.h` is not among the
translated sources): hands the response and status to the transport; the slot becomes
Completed. -/
def Call.SendResponse (call : CallId) (status : GrpcStatus) (w : World) : World :=
  { w with
    calls := updateAt (fun c => { c with state := .Completed }) call w.calls
    trace := w.trace ++ [.SendResponse call status] }

/-- The expression `new CallOptions`: a fresh token, not cancelled. -/
def new_CallOptions (w : World) : OptsId × World :=
  (w.call_opts.length,
   { w with
     call_opts := w.call_opts ++ [{ cancelled := false, deleted := false }]
     trace := w.trace ++ [.NewCallOptions w.call_opts.length] })

/-- The statement `delete call_opts`. -/
def delete_CallOptions (call_opts : OptsId) (w : World) : World :=
  { w with
    call_opts := updateAt (fun t => { t with deleted := true }) call_opts w.call_opts
    trace := w.trace ++ [.DeleteCallOptions call_opts] }

/-- Modelled from the spec: `CallOptions::StartCancel` (`call_options.h` is not among
the translated sources): sets the token to the cancelled state. -/
def CallOptions.StartCancel (call_opts : OptsId) (w : World) : World :=
  { w with
    call_opts := updateAt (fun t => { t with cancelled := true }) call_opts w.call_opts
    trace := w.trace ++ [.StartCancel call_opts] }

/-- Running a completion notifier with `status`: the bodies of the two lambdas of the
handlers. -/
def Done.invoke (E : Env) : Done → Status → World → World
  | .respond call, status, w =>
    let w := w.emit (.Notified call status)
    Call.SendResponse call (E.ToGrpcStatus status) w
  | .runStep call call_opts, status, w =>
    let w := w.emit (.Notified call status)
    let w := Call.ClearCancelCallback call w
    let w := delete_CallOptions call_opts w
    Call.SendResponse call (E.ToGrpcStatus status) w

/-- Modelled from the spec: one asynchronous operation of the Service Facade
(`master.h` is not among the translated sources),
`operation(request, response, [cancelToken], completionNotifier) -> void`.  The
operation returns; it either invokes the notifier before returning (`E.facade` gives
the status) or retains it. -/
def Master.call (E : Env) (method : Method) (call_opts : Option OptsId) (call : CallId)
    (done : Done) (w : World) : World :=
  let w := w.emit (.MasterCall method call call_opts done)
  match E.facade method call with
  | some status => done.invoke E status w
  | none => { w with pending := w.pending ++ [done] }

/-! ## `grpc_master_service.cc` -/

/-- The macro `ENQUEUE_REQUEST(method)`: creates a new request for `method` and
enqueues it on `cq_`, bound to `method##Handler`. -/
def ENQUEUE_REQUEST (method : Method) (w : World) : World :=
  Call.EnqueueRequest method w

/-- RPC handler for creating a session. -/
def CreateSessionHandler (E : Env) (call : CallId) (w : World) : World :=
  let w := Master.call E .CreateSession none call (.respond call) w
  ENQUEUE_REQUEST .CreateSession w

/-- RPC handler for extending a session. -/
def ExtendSessionHandler (E : Env) (call : CallId) (w : World) : World :=
  let w := Master.call E .ExtendSession none call (.respond call) w
  ENQUEUE_REQUEST .ExtendSession w

/-- RPC handler for running one step in a session. -/
def RunStepHandler (E : Env) (call : CallId) (w : World) : World :=
  let (call_opts, w) := new_CallOptions w
  let w := Call.SetCancelCallback call call_opts w
  let w := Master.call E .RunStep (some call_opts) call (.runStep call call_opts) w
  ENQUEUE_REQUEST .RunStep w

/-- RPC handler for deleting a session. -/
def CloseSessionHandler (E : Env) (call : CallId) (w : World) : World :=
  let w := Master.call E .CloseSession none call (.respond call) w
  ENQUEUE_REQUEST .CloseSession w

/-- RPC handler for listing devices. -/
def ListDevicesHandler (E : Env) (call : CallId) (w : World) : World :=
  let w := Master.call E .ListDevices none call (.respond call) w
  ENQUEUE_REQUEST .ListDevices w

/-- RPC handler for resetting all sessions. -/
def ResetHandler (E : Env) (call : CallId) (w : World) : World :=
  let w := Master.call E .Reset none call (.respond call) w
  ENQUEUE_REQUEST .Reset w

/-- The handler `ENQUEUE_REQUEST(method)` binds to the requests of `method`:
`&GrpcMasterService::method##Handler`. -/
def handlerOf : Method → Env → CallId → World → World
  | .CreateSession => CreateSessionHandler
  | .ExtendSession => ExtendSessionHandler
  | .RunStep => RunStepHandler
  | .CloseSession => CloseSessionHandler
  | .ListDevices => ListDevicesHandler
  | .Reset => ResetHandler

/-- Modelled from the spec: `Tag::OnCompleted` (`grpc_call.h` is not among the
translated sources), the action bound to a Dispatch Event: a "slot became ready" event
runs the handler of the slot's method on the slot; a "slot finished" event runs no
handler. -/
def Tag.OnCompleted (E : Env) : Tag → World → World
  | .RequestReceived method call, w => handlerOf method E call w
  | .ResponseSent _, w => w

/-- The counted loop `for (int i = 0; i < n; ++i) body`. -/
def forCount : Nat → (World → World) → World → World
  | 0, _, w => w
  | n + 1, body, w => forCount n body (body w)

/-- How `HandleRPCsLoop` ends: it returns, or `CHECK(ok)` aborts the process. -/
inductive Outcome
  | returned
  | aborted
deriving DecidableEq, Repr

/-- The statements of `HandleRPCsLoop` before the `while` loop. -/
def HandleRPCsLoop.arm (w : World) : World :=
  let w := ENQUEUE_REQUEST .CreateSession w
  let w := ENQUEUE_REQUEST .ExtendSession w
  let w := forCount 100 (ENQUEUE_REQUEST .RunStep) w
  let w := ENQUEUE_REQUEST .CloseSession w
  let w := ENQUEUE_REQUEST .ListDevices w
  ENQUEUE_REQUEST .Reset w

/-- The body of the `while` loop after `CHECK(ok)` has passed:
`callback_tag->OnCompleted(this, ok); delete callback_tag;`. -/
def HandleRPCsLoop.body (E : Env) (tag : Tag) (ok : Bool) (w : World) : World :=
  let w := w.emit (.OnCompleted tag ok)
  let w := tag.OnCompleted E w
  w.emit (.DeleteTag tag)

/-- The `while (cq_->Next(&tag, &ok))` loop.  `events` is what the successive calls of
`cq_->Next` yield before the queue reports shutdown. -/
def HandleRPCsLoop.loop (E : Env) : List (Tag × Bool) → World → Outcome × World
  | [], w => (.returned, w.emit (.Next none))
  | (tag, ok) :: events, w =>
    let w := w.emit (.Next (some (tag, ok)))
    if ok then
      HandleRPCsLoop.loop E events (HandleRPCsLoop.body E tag ok w)
    else
      (.aborted, w.emit .CheckFailed)

/-- The state after the loop has run one full iteration for each of `events`, in order:
`cq_->Next` yields the event, then the loop body runs on it. -/
def HandleRPCsLoop.iterate (E : Env) (events : List (Tag × Bool)) (w : World) : World :=
  events.foldl (fun w e => HandleRPCsLoop.body E e.1 e.2 (w.emit (.Next (some e)))) w

/-- The method `GrpcMasterService::HandleRPCsLoop`. -/
def HandleRPCsLoop (E : Env) (events : List (Tag × Bool)) (w : World) : Outcome × World :=
  HandleRPCsLoop.loop E events (HandleRPCsLoop.arm w)

/-! ## The service together with its transport

The transport (gRPC) acts between the iterations of the loop: incoming calls fill
Awaiting slots and post their events on the completion queue, the `Master` invokes
retained notifiers, clients cancel.  One `Step` is one such action, or one iteration of
the `while` loop of `HandleRPCsLoop`. -/

/-- The service, the completion queue `cq_` and the history of arrivals. -/
structure Sys where
  /-- The service and its objects. -/
  w : World
  /-- The events posted on `cq_` and not yet retrieved by `cq_->Next`, oldest first; the
  transport posts them with `ok = true`. -/
  cq : List Tag
  /-- The slots filled by incoming calls so far, in order of arrival. -/
  arrived : List CallId
deriving DecidableEq, Repr

/-- One action of the transport, of the `Master`, or of the loop. -/
inductive Step
  /-- An incoming call fills the Awaiting slot `call`. -/
  | arrive (call : CallId)
  /-- The loop retrieves the oldest event with `cq_->Next` and runs one iteration. -/
  | dispatch
  /-- The `Master` invokes the notifier it retained for `call`, with `status`. -/
  | notify (call : CallId) (status : Status)
  /-- The transport invokes the cancel callback registered on `call`. -/
  | cancel (call : CallId)
  /-- The transport reports that the response of the Completed slot `call` went out. -/
  | sent (call : CallId)
deriving DecidableEq, Repr

/-- Modelled from the spec: the effect of one step (the transport and the `Master` are
not among the translated sources).  A slot goes from Awaiting to Active when the
transport reports a matching incoming call; a notifier is invoked at most once; a step
that is not enabled leaves the state unchanged.  The `dispatch` step runs the loop body
of `HandleRPCsLoop`. -/
def Sys.step (E : Env) (S : Sys) : Step → Sys
  | .arrive call =>
    match S.w.calls[call]? with
    | some c =>
      if c.state = .Awaiting then
        { w := { S.w with calls := updateAt (fun c => { c with state := .Active }) call S.w.calls }
          cq := S.cq ++ [.RequestReceived c.method call]
          arrived := S.arrived ++ [call] }
      else S
    | none => S
  | .dispatch =>
    match S.cq with
    | [] => S
    | tag :: rest =>
      { S with
        w := HandleRPCsLoop.body E tag true (S.w.emit (.Next (some (tag, true))))
        cq := rest }
  | .notify call status =>
    match S.w.pending.find? (fun d => d.call == call) with
    | some d => { S with w := d.invoke E status { S.w with pending := S.w.pending.erase d } }
    | none => S
  | .cancel call =>
    match S.w.calls[call]? with
    | some c =>
      match c.cancel_callback with
      | some call_opts => { S with w := CallOptions.StartCancel call_opts S.w }
      | none => S
    | none => S
  | .sent call =>
    match S.w.calls[call]? with
    | some c => if c.state = .Completed then { S with cq := S.cq ++ [.ResponseSent call] } else S
    | none => S

/-- The state in which `HandleRPCsLoop` first calls `cq_->Next`: a new service that has
run the arming statements; nothing has arrived yet. -/
def Sys.boot : Sys :=
  { w := HandleRPCsLoop.arm World.empty, cq := [], arrived := [] }

/-- The state after a sequence of steps. -/
def Sys.run (E : Env) (S : Sys) (steps : List Step) : Sys :=
  steps.foldl (Sys.step E) S

/-! ## Observations -/

/-- The number of Awaiting slots of `method`: requests enqueued and not yet filled by an
incoming call. -/
def awaiting (method : Method) (w : World) : Nat :=
  w.calls.countP (fun c => decide (c.method = method ∧ c.state = .Awaiting))

/-- Whether the event is the arrival of a call of `method`. -/
def Tag.isRequestFor (method : Method) : Tag → Bool
  | .RequestReceived m _ => decide (m = method)
  | .ResponseSent _ => false

/-- The number of calls of `method` that have arrived and wait in the completion queue
for the loop to dispatch them. -/
def undispatched (method : Method) (cq : List Tag) : Nat :=
  cq.countP (Tag.isRequestFor method)

/-- The number of requests `HandleRPCsLoop` enqueues for `method` before its loop. -/
def standing : Method → Nat
  | .RunStep => 100
  | _ => 1

/-- The requests enqueued in a trace: method and slot, in order. -/
def enqueued (ops : List Op) : List (Method × CallId) :=
  ops.filterMap (fun op => match op with
    | .EnqueueRequest method call => some (method, call)
    | _ => none)

/-- The responses sent in a trace: slot and status, in order. -/
def responses (ops : List Op) : List (CallId × GrpcStatus) :=
  ops.filterMap (fun op => match op with
    | .SendResponse call status => some (call, status)
    | _ => none)

/-- The notifier invocations in a trace: slot and reported status, in order. -/
def notifications (ops : List Op) : List (CallId × Status) :=
  ops.filterMap (fun op => match op with
    | .Notified call status => some (call, status)
    | _ => none)

/-- The `Master` operations invoked in a trace: method and slot, in order. -/
def masterCalls (ops : List Op) : List (Method × CallId) :=
  ops.filterMap (fun op => match op with
    | .MasterCall method call _ _ => some (method, call)
    | _ => none)

/-- The operations of the loop itself in a trace: `cq_->Next`, `CHECK`, `OnCompleted`
and `delete callback_tag`. -/
def loopOps (ops : List Op) : List Op :=
  ops.filter (fun op => match op with
    | .Next _ => true
    | .CheckFailed => true
    | .OnCompleted _ _ => true
    | .DeleteTag _ => true
    | _ => false)

/-- The operations a function appended to the trace it was given. -/
def newOps (before after : World) : List Op :=
  after.trace.drop before.trace.length

/-- The calls whose arrival events wait in the completion queue. -/
def requestCalls (cq : List Tag) : List CallId :=
  cq.filterMap (fun t => match t with
    | .RequestReceived _ call => some call
    | .ResponseSent _ => none)

/-- Token safety of a state: every registered cancel callback refers to a token that
exists and has not been freed (`live`); the token of a retained RunStep notifier is
referred to by no callback but that of its own call (`owned`) and has been allocated
(`allocated`). -/
structure World.TokensSafe (w : World) : Prop where
  live : ∀ (j : Nat) (c : Call) (o : OptsId), w.calls[j]? = some c →
    c.cancel_callback = some o → ∃ t, w.call_opts[o]? = some t ∧ t.deleted = false
  owned : ∀ (i : CallId) (o : OptsId) (j : Nat) (c : Call), Done.runStep i o ∈ w.pending →
    w.calls[j]? = some c → c.cancel_callback = some o → j = i
  allocated : ∀ (i : CallId) (o : OptsId), Done.runStep i o ∈ w.pending →
    o < w.call_opts.length

/-- Every response in the trace is the conversion of the status its notifier was
invoked with, in the same order. -/
def World.Forwarded (E : Env) (w : World) : Prop :=
  responses w.trace = (notifications w.trace).map (fun p => (p.1, E.ToGrpcStatus p.2))

/-- The flow of calls through the slots: per method the Awaiting slots and the arrivals
not yet dispatched add up to the standing count (`count`); a slot that received a call
exists and is no longer Awaiting (`filled`); no slot received two calls (`nodup`); every
call that arrived is either waiting for dispatch, or with the `Master`, or answered,
exactly one of them and exactly once (`flow`); an answered slot is Completed
(`completed`). -/
structure Sys.Flow (S : Sys) : Prop where
  count : ∀ m, awaiting m S.w + undispatched m S.cq = standing m
  filled : ∀ i ∈ S.arrived, ∃ c, S.w.calls[i]? = some c ∧ c.state ≠ .Awaiting
  nodup : S.arrived.Nodup
  flow : ∀ i : CallId, S.arrived.count i
    = ((responses S.w.trace).map Prod.fst).count i + (S.w.pending.map Done.call).count i
      + (requestCalls S.cq).count i
  completed : ∀ i ∈ (responses S.w.trace).map Prod.fst,
    ∃ c, S.w.calls[i]? = some c ∧ c.state = .Completed

/-- A `ToGrpcStatus` that keeps code and message, and a `Master` that completes every
operation at once with OK. -/
def Env.immediate : Env :=
  { ToGrpcStatus := fun s => { code := s.code, error_message := s.error_message }
    facade := fun _ _ => some { code := 0, error_message := "" } }

/-- A `ToGrpcStatus` that keeps code and message, and a `Master` that retains every
notifier. -/
def Env.deferred : Env :=
  { ToGrpcStatus := fun s => { code := s.code, error_message := s.error_message }
    facade := fun _ _ => none }

/-- A schedule that delivers 150 RunStep calls against the 100 standing RunStep slots
(slots 2 to 101 of the armed service): 100 calls arrive and are dispatched, each dispatch
re-arming one slot (105, 106, ...); 50 more calls arrive on the re-armed slots and are
dispatched; then the `Master` invokes the notifier of each of the 150 calls, once, the
first 100 with status codes 0, 1, 2, 0, ... -/
def Sys.flood150 : List Step :=
  (List.range 100).map (fun k => Step.arrive (2 + k))
    ++ List.replicate 100 Step.dispatch
    ++ (List.range 50).map (fun k => Step.arrive (105 + k))
    ++ List.replicate 50 Step.dispatch
    ++ (List.range 100).map
        (fun k => Step.notify (2 + k) { code := k % 3, error_message := "" })
    ++ (List.range 50).map (fun k => Step.notify (105 + k) { code := 0, error_message := "" })

end tensorflow

/-! # Properties -/

namespace tensorflow

/-! ## Objects by index -/

theorem length_updateAt {α : Type} (f : α → α) (i : Nat) (l : List α) :
    (updateAt f i l).length = l.length := by
  induction l generalizing i with
  | nil => cases i <;> rfl
  | cons a as ih => cases i <;> simp [updateAt, ih]

theorem getElem?_updateAt {α : Type} (f : α → α) (i j : Nat) (l : List α) :
    (updateAt f i l)[j]? = if j = i then l[j]?.map f else l[j]? := by
  induction l generalizing i j with
  | nil => cases i <;> simp [updateAt]
  | cons a as ih =>
    cases i with
    | zero => cases j <;> simp [updateAt]
    | succ i => cases j <;> simp [updateAt, ih]

theorem countP_updateAt_same {α : Type} (p : α → Bool) (f : α → α) (i : Nat) (l : List α)
    (h : ∀ a, l[i]? = some a → p (f a) = p a) :
    (updateAt f i l).countP p = l.countP p := by
  induction l generalizing i with
  | nil => cases i <;> rfl
  | cons a as ih =>
    cases i with
    | zero =>
      have := h a (by simp)
      simp [updateAt, List.countP_cons, this]
    | succ i =>
      have := ih i (fun b hb => h b (by simpa using hb))
      simp [updateAt, List.countP_cons, this]

theorem countP_updateAt_drop {α : Type} (p : α → Bool) (f : α → α) (i : Nat) (l : List α)
    (a : α) (ha : l[i]? = some a) (h1 : p a = true) (h2 : p (f a) = false) :
    (updateAt f i l).countP p + 1 = l.countP p := by
  induction l generalizing i with
  | nil => simp at ha
  | cons b bs ih =>
    cases i with
    | zero =>
      simp at ha
      subst ha
      simp [updateAt, List.countP_cons, h1, h2]
    | succ i =>
      have := ih i (by simpa using ha)
      simp only [updateAt, List.countP_cons]
      omega

/-! ## The handlers in closed form -/

theorem handlerOf_plain (E : Env) (m : Method) (call : CallId) (w : World)
    (hm : m ≠ .RunStep) :
    handlerOf m E call w
      = ENQUEUE_REQUEST m (Master.call E m none call (.respond call) w) := by
  cases m <;> first | rfl | exact absurd rfl hm

theorem handlerOf_RunStep (E : Env) (call : CallId) (w : World) :
    handlerOf .RunStep E call w
      = ENQUEUE_REQUEST .RunStep
          (Master.call E .RunStep (some w.call_opts.length) call
            (.runStep call w.call_opts.length)
            (Call.SetCancelCallback call w.call_opts.length (new_CallOptions w).2)) := rfl

theorem plain_deferred (E : Env) (m : Method) (call : CallId) (w : World)
    (hm : m ≠ .RunStep) (hf : E.facade m call = none) :
    handlerOf m E call w =
      { calls := w.calls ++ [{ method := m, state := .Awaiting, cancel_callback := none }]
        call_opts := w.call_opts
        pending := w.pending ++ [.respond call]
        trace := w.trace ++
          [.MasterCall m call none (.respond call), .EnqueueRequest m w.calls.length] } := by
  rw [handlerOf_plain E m call w hm]
  simp [ENQUEUE_REQUEST, Call.EnqueueRequest, Master.call, hf, World.emit]

theorem plain_immediate (E : Env) (m : Method) (call : CallId) (w : World) (s : Status)
    (hm : m ≠ .RunStep) (hf : E.facade m call = some s) :
    handlerOf m E call w =
      { calls := updateAt (fun c => { c with state := .Completed }) call w.calls
          ++ [{ method := m, state := .Awaiting, cancel_callback := none }]
        call_opts := w.call_opts
        pending := w.pending
        trace := w.trace ++
          [.MasterCall m call none (.respond call), .Notified call s,
           .SendResponse call (E.ToGrpcStatus s), .EnqueueRequest m w.calls.length] } := by
  rw [handlerOf_plain E m call w hm]
  simp [ENQUEUE_REQUEST, Call.EnqueueRequest, Master.call, hf, World.emit, Done.invoke,
    Call.SendResponse, length_updateAt]

theorem RunStep_deferred (E : Env) (call : CallId) (w : World)
    (hf : E.facade .RunStep call = none) :
    handlerOf .RunStep E call w =
      { calls := updateAt (fun c => { c with cancel_callback := some w.call_opts.length })
            call w.calls
          ++ [{ method := .RunStep, state := .Awaiting, cancel_callback := none }]
        call_opts := w.call_opts ++ [{ cancelled := false, deleted := false }]
        pending := w.pending ++ [.runStep call w.call_opts.length]
        trace := w.trace ++
          [.NewCallOptions w.call_opts.length,
           .SetCancelCallback call w.call_opts.length,
           .MasterCall .RunStep call (some w.call_opts.length)
             (.runStep call w.call_opts.length),
           .EnqueueRequest .RunStep w.calls.length] } := by
  rw [handlerOf_RunStep]
  simp [ENQUEUE_REQUEST, Call.EnqueueRequest, Master.call, hf, World.emit,
    Call.SetCancelCallback, new_CallOptions, length_updateAt]

theorem RunStep_immediate (E : Env) (call : CallId) (w : World) (s : Status)
    (hf : E.facade .RunStep call = some s) :
    handlerOf .RunStep E call w =
      { calls :=
          updateAt (fun c => { c with state := .Completed }) call
            (updateAt (fun c => { c with cancel_callback := none }) call
              (updateAt (fun c => { c with cancel_callback := some w.call_opts.length })
                call w.calls))
          ++ [{ method := .RunStep, state := .Awaiting, cancel_callback := none }]
        call_opts :=
          updateAt (fun t => { t with deleted := true }) w.call_opts.length
            (w.call_opts ++ [{ cancelled := false, deleted := false }])
        pending := w.pending
        trace := w.trace ++
          [.NewCallOptions w.call_opts.length,
           .SetCancelCallback call w.call_opts.length,
           .MasterCall .RunStep call (some w.call_opts.length)
             (.runStep call w.call_opts.length),
           .Notified call s,
           .ClearCancelCallback call,
           .DeleteCallOptions w.call_opts.length,
           .SendResponse call (E.ToGrpcStatus s),
           .EnqueueRequest .RunStep w.calls.length] } := by
  rw [handlerOf_RunStep]
  simp [ENQUEUE_REQUEST, Call.EnqueueRequest, Master.call, hf, World.emit,
    Call.SetCancelCallback, new_CallOptions, length_updateAt, Done.invoke,
    Call.ClearCancelCallback, delete_CallOptions, Call.SendResponse]

theorem newOps_append (w w' : World) (ops : List Op) (h : w'.trace = w.trace ++ ops) :
    newOps w w' = ops := by
  simp [newOps, h]


/-! ## One handler invocation -/

/-- C2: for every method `m` and every call dispatched to the handler of `m`, whatever
the `Master` does with the completion notifier (invokes it before returning, or retains
it to invoke it later or never), the handler enqueues exactly one new request: it is
for method `m`, it creates one new slot, Awaiting, and it is the only request enqueued. -/
theorem handler_enqueues_one_request_of_its_method (E : Env) (m : Method) (call : CallId)
    (w : World) :
    (handlerOf m E call w).trace = w.trace ++ newOps w (handlerOf m E call w) ∧
    enqueued (newOps w (handlerOf m E call w)) = [(m, w.calls.length)] ∧
    (handlerOf m E call w).calls.length = w.calls.length + 1 ∧
    (handlerOf m E call w).calls[w.calls.length]?
      = some { method := m, state := .Awaiting, cancel_callback := none } := by
  by_cases hm : m = .RunStep
  · subst hm
    cases hf : E.facade .RunStep call with
    | none =>
      rw [RunStep_deferred E call w hf]
      simp [newOps, enqueued, length_updateAt, List.getElem?_append_right]
    | some s =>
      rw [RunStep_immediate E call w s hf]
      simp [newOps, enqueued, length_updateAt, List.getElem?_append_right]
  · cases hf : E.facade m call with
    | none =>
      rw [plain_deferred E m call w hm hf]
      simp [newOps, enqueued, List.getElem?_append_right]
    | some s =>
      rw [plain_immediate E m call w s hm hf]
      simp [newOps, enqueued, length_updateAt, List.getElem?_append_right]


theorem Done_invoke_ops (E : Env) (d : Done) (s : Status) (w : World) :
    (d.invoke E s w).trace = w.trace ++ newOps w (d.invoke E s w) ∧
    responses (newOps w (d.invoke E s w)) = [(d.call, E.ToGrpcStatus s)] ∧
    notifications (newOps w (d.invoke E s w)) = [(d.call, s)] ∧
    masterCalls (newOps w (d.invoke E s w)) = [] ∧
    enqueued (newOps w (d.invoke E s w)) = [] := by
  cases d <;>
    simp [Done.invoke, World.emit, Call.SendResponse, Call.ClearCancelCallback,
      delete_CallOptions, newOps, responses, notifications, masterCalls, enqueued, Done.call]

/-- C3: for every method and every call dispatched to its handler, the handler invokes
the `Master` operation for the call exactly once, passing a notifier; each invocation of
that notifier with a status `s` sends exactly one response, for that same call, with
status `ToGrpcStatus(s)` (whatever `s` is, success or not), and invokes no `Master`
operation; the handler itself sends a response only through the notifier: one when the
`Master` invoked the notifier before returning, none when it did not. -/
theorem handler_forwards_notified_status (E : Env) (m : Method) (call : CallId)
    (w : World) :
    masterCalls (newOps w (handlerOf m E call w)) = [(m, call)] ∧
    responses (newOps w (handlerOf m E call w))
      = (E.facade m call).toList.map (fun s => (call, E.ToGrpcStatus s)) ∧
    notifications (newOps w (handlerOf m E call w))
      = (E.facade m call).toList.map (fun s => (call, s)) ∧
    ∀ call_opts done, Op.MasterCall m call call_opts done ∈ newOps w (handlerOf m E call w) →
      ∀ (s : Status) (w' : World),
        responses (newOps w' (done.invoke E s w')) = [(call, E.ToGrpcStatus s)] ∧
        notifications (newOps w' (done.invoke E s w')) = [(call, s)] ∧
        masterCalls (newOps w' (done.invoke E s w')) = [] := by
  have key : ∀ done : Done, done.call = call → ∀ (s : Status) (w' : World),
      responses (newOps w' (done.invoke E s w')) = [(call, E.ToGrpcStatus s)] ∧
      notifications (newOps w' (done.invoke E s w')) = [(call, s)] ∧
      masterCalls (newOps w' (done.invoke E s w')) = [] := by
    intro done hd s w'
    have h := Done_invoke_ops E done s w'
    rw [hd] at h
    exact ⟨h.2.1, h.2.2.1, h.2.2.2.1⟩
  by_cases hm : m = .RunStep
  · subst hm
    cases hf : E.facade .RunStep call with
    | none =>
      rw [RunStep_deferred E call w hf]
      refine ⟨by simp [newOps, masterCalls], by simp [newOps, responses],
        by simp [newOps, notifications], ?_⟩
      intro o done hmem
      have : done = .runStep call w.call_opts.length := by
        simp [newOps] at hmem
        exact hmem.2
      subst this
      exact key _ rfl
    | some s =>
      rw [RunStep_immediate E call w s hf]
      refine ⟨by simp [newOps, masterCalls], by simp [newOps, responses],
        by simp [newOps, notifications], ?_⟩
      intro o done hmem
      have : done = .runStep call w.call_opts.length := by
        simp [newOps] at hmem
        exact hmem.2
      subst this
      exact key _ rfl
  · cases hf : E.facade m call with
    | none =>
      rw [plain_deferred E m call w hm hf]
      refine ⟨by simp [newOps, masterCalls], by simp [newOps, responses],
        by simp [newOps, notifications], ?_⟩
      intro o done hmem
      have : done = .respond call := by
        simp [newOps] at hmem
        exact hmem.2
      subst this
      exact key _ rfl
    | some s =>
      rw [plain_immediate E m call w s hm hf]
      refine ⟨by simp [newOps, masterCalls], by simp [newOps, responses],
        by simp [newOps, notifications], ?_⟩
      intro o done hmem
      have : done = .respond call := by
        simp [newOps] at hmem
        exact hmem.2
      subst this
      exact key _ rfl

theorem getElem?_StartCancel (o : OptsId) (w : World) (j : Nat) :
    (CallOptions.StartCancel o w).call_opts[j]?
      = if j = o then (w.call_opts[j]?).map (fun t => { t with cancelled := true })
        else w.call_opts[j]? := by
  simp [CallOptions.StartCancel, getElem?_updateAt]

/-- C6: `RunStepHandler` creates a fresh `CallOptions` (an index no existing token has),
registers on the call a cancel callback capturing exactly that token, and passes that
token to the `Master`; it creates no other token and registers no other callback.  When
the `Master` retains the notifier, the callback is registered on the slot and the
transport invoking it puts that token, and no other, into the cancelled state.  The
handlers of the other five methods create no token, register no cancel callback, pass
no token to the `Master`, and leave every slot's callback registration as it was. -/
theorem RunStepHandler_bridges_cancellation (E : Env) (call : CallId) (w : World) :
    w.call_opts[w.call_opts.length]? = none ∧
    (∃ rest, newOps w (RunStepHandler E call w)
        = [.NewCallOptions w.call_opts.length,
           .SetCancelCallback call w.call_opts.length,
           .MasterCall .RunStep call (some w.call_opts.length)
             (.runStep call w.call_opts.length)] ++ rest
        ∧ ∀ op ∈ rest, (∀ o, op ≠ .NewCallOptions o) ∧ (∀ c o, op ≠ .SetCancelCallback c o)
            ∧ (∀ mm cc oo dd, op ≠ .MasterCall mm cc oo dd)) ∧
    (∀ c, w.calls[call]? = some c → E.facade .RunStep call = none →
        (RunStepHandler E call w).calls[call]?
          = some { c with cancel_callback := some w.call_opts.length } ∧
        (RunStepHandler E call w).call_opts[w.call_opts.length]?
          = some { cancelled := false, deleted := false } ∧
        ∀ (cq : List Tag) (arrived : List CallId) (j : Nat),
          (Sys.step E { w := RunStepHandler E call w, cq := cq, arrived := arrived }
              (.cancel call)).w.call_opts[j]?
            = if j = w.call_opts.length then some { cancelled := true, deleted := false }
              else (RunStepHandler E call w).call_opts[j]?) ∧
    (∀ m, m ≠ .RunStep →
        (∀ op ∈ newOps w (handlerOf m E call w),
          (∀ o, op ≠ .NewCallOptions o) ∧ (∀ c o, op ≠ .SetCancelCallback c o) ∧
          (∀ mm cc oo dd, op = .MasterCall mm cc oo dd → oo = none)) ∧
        (handlerOf m E call w).call_opts = w.call_opts ∧
        ∀ (j : Nat) (c : Call), w.calls[j]? = some c →
          ((handlerOf m E call w).calls[j]?).map Call.cancel_callback
            = some c.cancel_callback) := by
  have hR : RunStepHandler E call w = handlerOf .RunStep E call w := rfl
  refine ⟨by simp, ?_, ?_, ?_⟩
  · rw [hR]
    cases hf : E.facade .RunStep call with
    | none =>
      rw [RunStep_deferred E call w hf]
      exact ⟨[.EnqueueRequest .RunStep w.calls.length], by simp [newOps], by simp⟩
    | some s =>
      rw [RunStep_immediate E call w s hf]
      refine ⟨[.Notified call s, .ClearCancelCallback call,
        .DeleteCallOptions w.call_opts.length, .SendResponse call (E.ToGrpcStatus s),
        .EnqueueRequest .RunStep w.calls.length], by simp [newOps], by simp⟩
  · intro c hc hf
    rw [hR, RunStep_deferred E call w hf]
    have hlt : call < w.calls.length := by
      rcases List.getElem?_eq_some.mp hc with ⟨h, _⟩
      exact h
    have h1 : (updateAt (fun c => { c with cancel_callback := some w.call_opts.length })
          call w.calls ++ [{ method := .RunStep, state := .Awaiting, cancel_callback := none }])[call]?
        = some { c with cancel_callback := some w.call_opts.length } := by
      rw [List.getElem?_append_left (by simpa [length_updateAt] using hlt)]
      simp [getElem?_updateAt, hc]
    refine ⟨h1, by simp, ?_⟩
    intro cq arrived j
    simp only [Sys.step, h1]
    rw [getElem?_StartCancel]
    by_cases hj : j = w.call_opts.length
    · subst hj
      simp
    · simp [hj]
  · intro m hm
    cases hf : E.facade m call with
    | none =>
      rw [plain_deferred E m call w hm hf]
      refine ⟨?_, rfl, ?_⟩
      · simp only [newOps, List.drop_left]
        intro op hop
        simp at hop
        rcases hop with rfl | rfl | rfl | rfl <;> simp
        intro _ _ _ _ _ _ h _
        exact h.symm
      intro j c hj
      have hlt : j < w.calls.length := by
        rcases List.getElem?_eq_some.mp hj with ⟨h, _⟩
        exact h
      simp [List.getElem?_append_left hlt, hj]
    | some s =>
      rw [plain_immediate E m call w s hm hf]
      refine ⟨?_, rfl, ?_⟩
      · simp only [newOps, List.drop_left]
        intro op hop
        simp at hop
        rcases hop with rfl | rfl | rfl | rfl <;> simp
        intro _ _ _ _ _ _ h _
        exact h.symm
      intro j c hj
      have hlt : j < w.calls.length := by
        rcases List.getElem?_eq_some.mp hj with ⟨h, _⟩
        exact h
      rw [List.getElem?_append_left (by simpa [length_updateAt] using hlt)]
      by_cases hjc : j = call
      · subst hjc
        simp [getElem?_updateAt, hj]
      · simp [getElem?_updateAt, hj, hjc]

set_option maxRecDepth 100000 in
/-- C6, at a concrete input: slot 2 of the armed service is a RunStep slot; with a
`Master` that retains the notifier, the handler registers on it the callback of token 0,
and cancelling sets token 0 to cancelled. -/
theorem RunStepHandler_bridges_cancellation_witness :
    (RunStepHandler Env.deferred 2 (HandleRPCsLoop.arm World.empty)).calls[2]?
        = some { method := .RunStep, state := .Awaiting, cancel_callback := some 0 } ∧
    (Sys.step Env.deferred
        { w := RunStepHandler Env.deferred 2 (HandleRPCsLoop.arm World.empty),
          cq := [], arrived := [] } (.cancel 2)).w.call_opts[0]?
      = some { cancelled := true, deleted := false } := by
  have h := (RunStepHandler_bridges_cancellation Env.deferred 2
    (HandleRPCsLoop.arm World.empty)).2.2.1
    { method := .RunStep, state := .Awaiting, cancel_callback := none } (by decide) rfl
  exact ⟨h.1, by simpa using h.2.2 [] [] 0⟩

theorem forCount_ENQUEUE_REQUEST (m : Method) (n : Nat) (w : World) :
    forCount n (ENQUEUE_REQUEST m) w =
      { calls := w.calls
          ++ List.replicate n { method := m, state := .Awaiting, cancel_callback := none }
        call_opts := w.call_opts
        pending := w.pending
        trace := w.trace
          ++ (List.range n).map (fun k => Op.EnqueueRequest m (w.calls.length + k)) } := by
  induction n generalizing w with
  | zero => simp [forCount]
  | succ n ih =>
    rw [forCount, ih]
    simp [ENQUEUE_REQUEST, Call.EnqueueRequest, List.replicate_succ, List.range_succ_eq_map,
      List.map_map, Function.comp_def, Nat.add_assoc, Nat.add_comm 1]

theorem arm_closed_form (w : World) :
    HandleRPCsLoop.arm w =
      { calls := w.calls
          ++ ([{ method := .CreateSession, state := .Awaiting, cancel_callback := none },
               { method := .ExtendSession, state := .Awaiting, cancel_callback := none }]
            ++ List.replicate 100
                { method := .RunStep, state := .Awaiting, cancel_callback := none }
            ++ [{ method := .CloseSession, state := .Awaiting, cancel_callback := none },
                { method := .ListDevices, state := .Awaiting, cancel_callback := none },
                { method := .Reset, state := .Awaiting, cancel_callback := none }])
        call_opts := w.call_opts
        pending := w.pending
        trace := w.trace
          ++ ([Op.EnqueueRequest .CreateSession w.calls.length,
               Op.EnqueueRequest .ExtendSession (w.calls.length + 1)]
            ++ (List.range 100).map (fun k => Op.EnqueueRequest .RunStep (w.calls.length + 2 + k))
            ++ [Op.EnqueueRequest .CloseSession (w.calls.length + 102),
                Op.EnqueueRequest .ListDevices (w.calls.length + 103),
                Op.EnqueueRequest .Reset (w.calls.length + 104)]) } := by
  unfold HandleRPCsLoop.arm
  simp only [forCount_ENQUEUE_REQUEST]
  simp [ENQUEUE_REQUEST, Call.EnqueueRequest, Nat.add_assoc]

theorem enqueued_map_EnqueueRequest (m : Method) (f : Nat → CallId) (l : List Nat) :
    enqueued (l.map (fun k => Op.EnqueueRequest m (f k))) = l.map (fun k => (m, f k)) := by
  induction l with
  | nil => rfl
  | cons a as ih =>
    simp only [List.map_cons]
    rw [← ih]
    rfl

theorem handler_trace (E : Env) (m : Method) (call : CallId) (w : World) :
    ∃ ops, (handlerOf m E call w).trace = w.trace ++ ops ∧ loopOps ops = [] := by
  by_cases hm : m = .RunStep
  · subst hm
    cases hf : E.facade .RunStep call with
    | none =>
      rw [RunStep_deferred E call w hf]
      exact ⟨_, rfl, by simp [loopOps]⟩
    | some s =>
      rw [RunStep_immediate E call w s hf]
      exact ⟨_, rfl, by simp [loopOps]⟩
  · cases hf : E.facade m call with
    | none =>
      rw [plain_deferred E m call w hm hf]
      exact ⟨_, rfl, by simp [loopOps]⟩
    | some s =>
      rw [plain_immediate E m call w s hm hf]
      exact ⟨_, rfl, by simp [loopOps]⟩

theorem body_trace (E : Env) (tag : Tag) (ok : Bool) (w : World) :
    ∃ ops, (HandleRPCsLoop.body E tag ok w).trace = w.trace ++ ops ∧
      loopOps ops = [.OnCompleted tag ok, .DeleteTag tag] := by
  cases tag with
  | RequestReceived m call =>
    obtain ⟨ops, h, hl⟩ := handler_trace E m call (w.emit (.OnCompleted (.RequestReceived m call) ok))
    refine ⟨[.OnCompleted (.RequestReceived m call) ok] ++ ops
      ++ [.DeleteTag (.RequestReceived m call)], ?_, ?_⟩
    · simp only [HandleRPCsLoop.body, Tag.OnCompleted, World.emit] at h ⊢
      rw [h]
      simp
    · simp only [loopOps, List.filter_append] at hl ⊢
      rw [hl]
      simp
  | ResponseSent call =>
    exact ⟨[.OnCompleted (.ResponseSent call) ok, .DeleteTag (.ResponseSent call)],
      by simp [HandleRPCsLoop.body, Tag.OnCompleted, World.emit], by simp [loopOps]⟩

theorem iterate_cons (E : Env) (e : Tag × Bool) (events : List (Tag × Bool)) (w : World) :
    HandleRPCsLoop.iterate E (e :: events) w
      = HandleRPCsLoop.iterate E events
          (HandleRPCsLoop.body E e.1 e.2 (w.emit (.Next (some e)))) := rfl

theorem iterate_trace (E : Env) (events : List (Tag × Bool)) (w : World) :
    ∃ ops, (HandleRPCsLoop.iterate E events w).trace = w.trace ++ ops ∧
      loopOps ops
        = events.flatMap (fun e => [.Next (some e), .OnCompleted e.1 e.2, .DeleteTag e.1]) := by
  induction events generalizing w with
  | nil => exact ⟨[], by simp [HandleRPCsLoop.iterate], by simp [loopOps]⟩
  | cons e events ih =>
    obtain ⟨ops1, h1, hl1⟩ := body_trace E e.1 e.2 (w.emit (.Next (some e)))
    obtain ⟨ops2, h2, hl2⟩ := ih (HandleRPCsLoop.body E e.1 e.2 (w.emit (.Next (some e))))
    refine ⟨[.Next (some e)] ++ ops1 ++ ops2, ?_, ?_⟩
    · rw [iterate_cons, h2, h1]
      simp [World.emit]
    · simp only [loopOps, List.filter_append] at hl1 hl2 ⊢
      rw [hl1, hl2]
      simp [List.flatMap_cons]

theorem loop_all_ok (E : Env) (events : List (Tag × Bool)) (w : World)
    (hok : ∀ e ∈ events, e.2 = true) :
    HandleRPCsLoop.loop E events w
      = (.returned, (HandleRPCsLoop.iterate E events w).emit (.Next none)) := by
  induction events generalizing w with
  | nil => rfl
  | cons e events ih =>
    obtain ⟨tag, ok⟩ := e
    have hok1 : ok = true := hok (tag, ok) (by simp)
    subst hok1
    rw [HandleRPCsLoop.loop]
    simp only [if_true]
    rw [ih _ (fun e he => hok e (by simp [he]))]
    rfl

theorem loop_not_ok (E : Env) (pre post : List (Tag × Bool)) (tag : Tag) (w : World)
    (hpre : ∀ e ∈ pre, e.2 = true) :
    HandleRPCsLoop.loop E (pre ++ (tag, false) :: post) w
      = (.aborted,
          ((HandleRPCsLoop.iterate E pre w).emit (.Next (some (tag, false)))).emit
            .CheckFailed) := by
  induction pre generalizing w with
  | nil => simp [HandleRPCsLoop.loop, HandleRPCsLoop.iterate]
  | cons e pre ih =>
    obtain ⟨t, ok⟩ := e
    have hok1 : ok = true := hpre (t, ok) (by simp)
    subst hok1
    rw [List.cons_append, HandleRPCsLoop.loop]
    simp only [if_true]
    rw [ih _ (fun e he => hpre e (by simp [he]))]
    rfl

theorem loop_extends (E : Env) (events : List (Tag × Bool)) (w : World) :
    ∃ ops, (HandleRPCsLoop.loop E events w).2.trace = w.trace ++ ops := by
  induction events generalizing w with
  | nil => exact ⟨[.Next none], rfl⟩
  | cons e events ih =>
    obtain ⟨tag, ok⟩ := e
    cases ok with
    | false => exact ⟨[.Next (some (tag, false)), .CheckFailed], by simp [HandleRPCsLoop.loop, World.emit]⟩
    | true =>
      obtain ⟨ops1, h1, _⟩ := body_trace E tag true (w.emit (.Next (some (tag, true))))
      obtain ⟨ops2, h2⟩ := ih (HandleRPCsLoop.body E tag true (w.emit (.Next (some (tag, true)))))
      refine ⟨[.Next (some (tag, true))] ++ ops1 ++ ops2, ?_⟩
      rw [HandleRPCsLoop.loop]
      simp only [if_true]
      rw [h2, h1]
      simp [World.emit]

theorem loop_first_op (E : Env) (events : List (Tag × Bool)) (w : World) :
    ∃ rest, (HandleRPCsLoop.loop E events w).2.trace = w.trace ++ .Next events.head? :: rest := by
  cases events with
  | nil => exact ⟨[], rfl⟩
  | cons e events =>
    obtain ⟨tag, ok⟩ := e
    cases ok with
    | false => exact ⟨[.CheckFailed], by simp [HandleRPCsLoop.loop, World.emit]⟩
    | true =>
      obtain ⟨ops1, h1, _⟩ := body_trace E tag true (w.emit (.Next (some (tag, true))))
      obtain ⟨ops2, h2⟩ :=
        loop_extends E events (HandleRPCsLoop.body E tag true (w.emit (.Next (some (tag, true)))))
      refine ⟨ops1 ++ ops2, ?_⟩
      rw [HandleRPCsLoop.loop]
      simp only [if_true]
      rw [h2, h1]
      simp [World.emit]

theorem armOps_methods (n L : Nat) :
    (enqueued
      ([Op.EnqueueRequest .CreateSession L, Op.EnqueueRequest .ExtendSession (L + 1)]
        ++ (List.range n).map (fun k => Op.EnqueueRequest .RunStep (L + 2 + k))
        ++ [Op.EnqueueRequest .CloseSession (L + 102), Op.EnqueueRequest .ListDevices (L + 103),
            Op.EnqueueRequest .Reset (L + 104)])).map Prod.fst
      = [.CreateSession, .ExtendSession] ++ List.replicate n .RunStep
          ++ [.CloseSession, .ListDevices, .Reset] := by
  have := enqueued_map_EnqueueRequest .RunStep (fun k => L + 2 + k) (List.range n)
  simp only [enqueued] at this
  simp only [enqueued, List.filterMap_append, this]
  simp [List.map_map, Function.comp_def, List.map_const']

theorem armOps_count (n : Nat) (m : Method) :
    List.count m
        (([Method.CreateSession, Method.ExtendSession] ++ List.replicate n Method.RunStep
          ++ [Method.CloseSession, Method.ListDevices, Method.Reset] : List Method))
      = if m = .RunStep then n else 1 := by
  cases m <;> simp [List.count_replicate, List.count_cons]

theorem armSlots_awaiting (n : Nat) (m : Method) (calls : List Call) :
    List.countP (fun c => decide (c.method = m ∧ c.state = .Awaiting))
        ((calls
          ++ ([({ method := .CreateSession, state := .Awaiting, cancel_callback := none } : Call),
               { method := .ExtendSession, state := .Awaiting, cancel_callback := none }]
            ++ List.replicate n
                ({ method := .RunStep, state := .Awaiting, cancel_callback := none } : Call)
            ++ [{ method := .CloseSession, state := .Awaiting, cancel_callback := none },
                { method := .ListDevices, state := .Awaiting, cancel_callback := none },
                { method := .Reset, state := .Awaiting, cancel_callback := none }]) : List Call))
      = List.countP (fun c => decide (c.method = m ∧ c.state = .Awaiting)) calls
        + if m = .RunStep then n else 1 := by
  cases m <;> simp [List.countP_replicate, List.countP_cons]

theorem standing_eq (m : Method) : standing m = if m = .RunStep then 100 else 1 := by
  cases m <;> rfl

/-- C7: before `HandleRPCsLoop` makes its first call to `cq_->Next` it has enqueued, and
done nothing else, exactly 1 CreateSession, 1 ExtendSession, 100 RunStep, 1 CloseSession,
1 ListDevices and 1 Reset request, 105 in all, each a new Awaiting slot; the first
operation after them is the first `cq_->Next`; and the standing count of RunStep is 100
times that of each other method. -/
theorem HandleRPCsLoop_arms_standing_set (E : Env) (events : List (Tag × Bool))
    (w : World) :
    (HandleRPCsLoop.arm w).trace = w.trace ++ newOps w (HandleRPCsLoop.arm w) ∧
    (newOps w (HandleRPCsLoop.arm w)).length = 105 ∧
    (enqueued (newOps w (HandleRPCsLoop.arm w))).map Prod.fst
      = [.CreateSession, .ExtendSession] ++ List.replicate 100 .RunStep
          ++ [.CloseSession, .ListDevices, .Reset] ∧
    (enqueued (newOps w (HandleRPCsLoop.arm w))).length = 105 ∧
    (∀ m, ((enqueued (newOps w (HandleRPCsLoop.arm w))).map Prod.fst).count m = standing m) ∧
    (∀ m, awaiting m (HandleRPCsLoop.arm w) = awaiting m w + standing m) ∧
    (∀ m, m ≠ .RunStep → standing .RunStep = 100 * standing m) ∧
    (∃ rest, (HandleRPCsLoop E events w).2.trace
        = (HandleRPCsLoop.arm w).trace ++ .Next events.head? :: rest) := by
  have hnew : newOps w (HandleRPCsLoop.arm w)
      = [Op.EnqueueRequest .CreateSession w.calls.length,
         Op.EnqueueRequest .ExtendSession (w.calls.length + 1)]
        ++ (List.range 100).map (fun k => Op.EnqueueRequest .RunStep (w.calls.length + 2 + k))
        ++ [Op.EnqueueRequest .CloseSession (w.calls.length + 102),
            Op.EnqueueRequest .ListDevices (w.calls.length + 103),
            Op.EnqueueRequest .Reset (w.calls.length + 104)] := by
    rw [arm_closed_form]
    exact newOps_append _ _ _ rfl
  have henq : (enqueued (newOps w (HandleRPCsLoop.arm w))).map Prod.fst
      = [.CreateSession, .ExtendSession] ++ List.replicate 100 .RunStep
          ++ [.CloseSession, .ListDevices, .Reset] := by
    rw [hnew]
    exact armOps_methods 100 w.calls.length
  refine ⟨?_, ?_, henq, ?_, ?_, ?_, ?_, loop_first_op E events _⟩
  · rw [hnew, arm_closed_form]
  · rw [hnew]
    simp only [List.length_append, List.length_map, List.length_range, List.length_cons,
      List.length_nil]
  · have := congrArg List.length henq
    simp only [List.length_map, List.length_append, List.length_replicate, List.length_cons,
      List.length_nil] at this
    exact this
  · intro m
    rw [henq, armOps_count, standing_eq]
  · intro m
    rw [arm_closed_form, standing_eq]
    exact armSlots_awaiting 100 m w.calls
  · intro m hm
    cases m <;> first | rfl | exact absurd rfl hm

theorem flatMap_all_ok (events : List (Tag × Bool)) (hok : ∀ e ∈ events, e.2 = true) :
    events.flatMap (fun e => [Op.Next (some e), Op.OnCompleted e.1 e.2, Op.DeleteTag e.1])
      = events.flatMap (fun e => [Op.Next (some e), Op.OnCompleted e.1 true, Op.DeleteTag e.1]) := by
  induction events with
  | nil => rfl
  | cons e events ih =>
    simp only [List.flatMap_cons]
    rw [ih (fun e he => hok e (by simp [he])), hok e (by simp)]

theorem count_OnCompleted_flatMap (events : List (Tag × Bool)) (tag : Tag) :
    List.count (Op.OnCompleted tag true)
        (events.flatMap
          (fun e => [Op.Next (some e), Op.OnCompleted e.1 true, Op.DeleteTag e.1]))
      = List.count tag (events.map Prod.fst) := by
  induction events with
  | nil => rfl
  | cons e events ih =>
    simp only [List.flatMap_cons, List.count_append, ih, List.map_cons, List.count_cons]
    by_cases h : e.1 = tag <;> simp [h]
    omega

theorem count_DeleteTag_flatMap (events : List (Tag × Bool)) (tag : Tag) :
    List.count (Op.DeleteTag tag)
        (events.flatMap
          (fun e => [Op.Next (some e), Op.OnCompleted e.1 true, Op.DeleteTag e.1]))
      = List.count tag (events.map Prod.fst) := by
  induction events with
  | nil => rfl
  | cons e events ih =>
    simp only [List.flatMap_cons, List.count_append, ih, List.map_cons, List.count_cons]
    by_cases h : e.1 = tag <;> simp [h]
    omega

/-- C4: when every event `cq_->Next` yields before it reports shutdown has `ok = true`,
`HandleRPCsLoop` returns, and it returns right after the `cq_->Next` that reports
shutdown; its state is that of running the loop body once on each event in the order
retrieved; the loop's own operations are, for each event in that order, `cq_->Next`,
`OnCompleted` on the event's tag, then `delete` of that tag, so each tag gets
`OnCompleted` and `delete` exactly as many times as it was retrieved and nothing touches
a tag after its `delete`. -/
theorem HandleRPCsLoop_runs_each_event_once (E : Env) (events : List (Tag × Bool))
    (w : World) (hok : ∀ e ∈ events, e.2 = true) :
    (HandleRPCsLoop E events w).1 = .returned ∧
    (HandleRPCsLoop E events w).2
      = (HandleRPCsLoop.iterate E events (HandleRPCsLoop.arm w)).emit (.Next none) ∧
    (HandleRPCsLoop E events w).2.trace
      = (HandleRPCsLoop.arm w).trace
          ++ newOps (HandleRPCsLoop.arm w) (HandleRPCsLoop E events w).2 ∧
    loopOps (newOps (HandleRPCsLoop.arm w) (HandleRPCsLoop E events w).2)
      = events.flatMap (fun e => [.Next (some e), .OnCompleted e.1 true, .DeleteTag e.1])
          ++ [.Next none] ∧
    ∀ tag,
      List.count (Op.OnCompleted tag true)
          (loopOps (newOps (HandleRPCsLoop.arm w) (HandleRPCsLoop E events w).2))
        = List.count tag (events.map Prod.fst) ∧
      List.count (Op.DeleteTag tag)
          (loopOps (newOps (HandleRPCsLoop.arm w) (HandleRPCsLoop E events w).2))
        = List.count tag (events.map Prod.fst) := by
  have hloop := loop_all_ok E events (HandleRPCsLoop.arm w) hok
  obtain ⟨ops, hops, hl⟩ := iterate_trace E events (HandleRPCsLoop.arm w)
  have htrace : (HandleRPCsLoop E events w).2.trace
      = (HandleRPCsLoop.arm w).trace ++ (ops ++ [.Next none]) := by
    simp [HandleRPCsLoop, hloop, World.emit, hops]
  have hnew := newOps_append _ _ _ htrace
  have hlo : loopOps (newOps (HandleRPCsLoop.arm w) (HandleRPCsLoop E events w).2)
      = events.flatMap (fun e => [.Next (some e), .OnCompleted e.1 true, .DeleteTag e.1])
          ++ [.Next none] := by
    rw [hnew]
    simp only [loopOps, List.filter_append] at hl ⊢
    rw [hl, flatMap_all_ok events hok]
    simp
  refine ⟨by simp [HandleRPCsLoop, hloop], by simp [HandleRPCsLoop, hloop], ?_, hlo, ?_⟩
  · rw [hnew, htrace]
  · intro tag
    rw [hlo]
    simp only [List.count_append, count_OnCompleted_flatMap, count_DeleteTag_flatMap]
    simp

/-- C4, at a concrete input: a RunStep arrival on slot 2 and the completion of slot 2,
then shutdown. -/
theorem HandleRPCsLoop_runs_each_event_once_witness :
    (HandleRPCsLoop Env.immediate
        [(.RequestReceived .RunStep 2, true), (.ResponseSent 2, true)] World.empty).1
      = .returned :=
  (HandleRPCsLoop_runs_each_event_once Env.immediate
    [(.RequestReceived .RunStep 2, true), (.ResponseSent 2, true)] World.empty
    (by decide)).1

/-- C5: when `cq_->Next` yields an event with `ok = false` (after events that all had
`ok = true`), `HandleRPCsLoop` aborts on `CHECK(ok)`: after the iterations for the
earlier events it does nothing but that `cq_->Next` and the failing check, so the
event's `OnCompleted` action is not invoked, no response is sent for it, and the events
after it play no part. -/
theorem HandleRPCsLoop_aborts_on_failed_event (E : Env) (pre post : List (Tag × Bool))
    (tag : Tag) (w : World) (hpre : ∀ e ∈ pre, e.2 = true) :
    (HandleRPCsLoop E (pre ++ (tag, false) :: post) w).1 = .aborted ∧
    (HandleRPCsLoop E (pre ++ (tag, false) :: post) w).2
      = ((HandleRPCsLoop.iterate E pre (HandleRPCsLoop.arm w)).emit
            (.Next (some (tag, false)))).emit .CheckFailed ∧
    newOps (HandleRPCsLoop.iterate E pre (HandleRPCsLoop.arm w))
        (HandleRPCsLoop E (pre ++ (tag, false) :: post) w).2
      = [.Next (some (tag, false)), .CheckFailed] ∧
    responses (HandleRPCsLoop E (pre ++ (tag, false) :: post) w).2.trace
      = responses (HandleRPCsLoop.iterate E pre (HandleRPCsLoop.arm w)).trace ∧
    HandleRPCsLoop E (pre ++ (tag, false) :: post) w
      = HandleRPCsLoop E (pre ++ [(tag, false)]) w := by
  have h := loop_not_ok E pre post tag (HandleRPCsLoop.arm w) hpre
  have h' := loop_not_ok E pre [] tag (HandleRPCsLoop.arm w) hpre
  refine ⟨by simp [HandleRPCsLoop, h], by simp [HandleRPCsLoop, h], ?_, ?_, ?_⟩
  · simp [HandleRPCsLoop, h, newOps, World.emit]
  · simp [HandleRPCsLoop, h, World.emit, responses]
  · simp only [HandleRPCsLoop]
    rw [h, h']

/-- C5, at a concrete input: a CreateSession arrival, then a failed event, then one
more event that is never retrieved. -/
theorem HandleRPCsLoop_aborts_on_failed_event_witness :
    (HandleRPCsLoop Env.immediate
        ([(.RequestReceived .CreateSession 0, true)] ++ (.ResponseSent 0, false)
          :: [(.RequestReceived .Reset 104, true)]) World.empty).1
      = .aborted :=
  (HandleRPCsLoop_aborts_on_failed_event Env.immediate
    [(.RequestReceived .CreateSession 0, true)] [(.RequestReceived .Reset 104, true)]
    (.ResponseSent 0) World.empty (by decide)).1

/-! ## Token safety -/

theorem updateAt_updateAt {α : Type} (f g : α → α) (i : Nat) (l : List α) :
    updateAt f i (updateAt g i l) = updateAt (fun a => f (g a)) i l := by
  induction l generalizing i with
  | nil => cases i <;> rfl
  | cons a as ih => cases i <;> simp [updateAt, ih]

theorem slot_of_updateAt_append {α : Type} (F : α → α) (i j : Nat) (l news : List α) (c : α)
    (h : (updateAt F i l ++ news)[j]? = some c) :
    (∃ c0, l[j]? = some c0 ∧ c = if j = i then F c0 else c0) ∨ (l.length ≤ j ∧ c ∈ news) := by
  rw [List.getElem?_append] at h
  split at h
  · left
    rw [getElem?_updateAt] at h
    by_cases hji : j = i
    · simp only [hji, if_true] at h ⊢
      cases hl : l[i]? with
      | none => simp [hl] at h
      | some c0 => exact ⟨c0, rfl, by simpa [hl] using h.symm⟩
    · simp only [hji, if_false] at h ⊢
      exact ⟨c, h, rfl⟩
  · right
    rename_i hlt
    rw [length_updateAt] at hlt h
    exact ⟨Nat.le_of_not_lt hlt, List.getElem?_mem h⟩

theorem slot_of_updateAt {α : Type} (F : α → α) (i j : Nat) (l : List α) (c : α)
    (h : (updateAt F i l)[j]? = some c) :
    ∃ c0, l[j]? = some c0 ∧ c = if j = i then F c0 else c0 := by
  rw [getElem?_updateAt] at h
  by_cases hji : j = i
  · simp only [hji, if_true] at h ⊢
    cases hl : l[i]? with
    | none => simp [hl] at h
    | some c0 => exact ⟨c0, rfl, by simpa [hl] using h.symm⟩
  · simp only [hji, if_false] at h ⊢
    exact ⟨c, h, rfl⟩

theorem TokensSafe_emit (w : World) (op : Op) (h : w.TokensSafe) : (w.emit op).TokensSafe :=
  ⟨h.live, h.owned, h.allocated⟩

theorem TokensSafe_empty : World.empty.TokensSafe :=
  ⟨by simp [World.empty], by simp [World.empty], by simp [World.empty]⟩

theorem TokensSafe_EnqueueRequest (m : Method) (w : World) (h : w.TokensSafe) :
    (Call.EnqueueRequest m w).TokensSafe := by
  have key : ∀ (j : Nat) (c : Call) (o : OptsId),
      (w.calls ++ [{ method := m, state := .Awaiting, cancel_callback := none }])[j]? = some c →
      c.cancel_callback = some o → w.calls[j]? = some c := by
    intro j c o hj hcb
    rw [List.getElem?_append] at hj
    split at hj
    · exact hj
    · have := List.getElem?_mem hj
      simp at this
      subst this
      simp at hcb
  refine ⟨?_, ?_, h.allocated⟩
  · intro j c o hj hcb
    exact h.live j c o (key j c o hj hcb) hcb
  · intro i o j c hd hj hcb
    exact h.owned i o j c hd (key j c o hj hcb) hcb

theorem TokensSafe_forCount (m : Method) (n : Nat) (w : World) (h : w.TokensSafe) :
    (forCount n (ENQUEUE_REQUEST m) w).TokensSafe := by
  induction n generalizing w with
  | zero => exact h
  | succ n ih => exact ih _ (TokensSafe_EnqueueRequest m w h)

theorem TokensSafe_arm (w : World) (h : w.TokensSafe) : (HandleRPCsLoop.arm w).TokensSafe := by
  unfold HandleRPCsLoop.arm
  exact TokensSafe_EnqueueRequest _ _ (TokensSafe_EnqueueRequest _ _
    (TokensSafe_EnqueueRequest _ _ (TokensSafe_forCount _ _ _
      (TokensSafe_EnqueueRequest _ _ (TokensSafe_EnqueueRequest _ _ h)))))

theorem TokensSafe_StartCancel (o : OptsId) (w : World) (h : w.TokensSafe) :
    (CallOptions.StartCancel o w).TokensSafe := by
  refine ⟨?_, h.owned, ?_⟩
  · intro j c o' hj hcb
    obtain ⟨t, ht, hdel⟩ := h.live j c o' hj hcb
    by_cases ho : o' = o
    · subst ho
      exact ⟨{ t with cancelled := true }, by simp [getElem?_StartCancel, ht], hdel⟩
    · exact ⟨t, by simp [getElem?_StartCancel, ho, ht], hdel⟩
  · intro i o' hd
    simpa [CallOptions.StartCancel, length_updateAt] using h.allocated i o' hd

theorem TokensSafe_setState (st : SlotState) (call : CallId) (w : World) (h : w.TokensSafe) :
    ({ w with calls := updateAt (fun c => { c with state := st }) call w.calls } :
      World).TokensSafe := by
  have key : ∀ (j : Nat) (c : Call),
      (updateAt (fun c => { c with state := st }) call w.calls)[j]? = some c →
      ∃ c0, w.calls[j]? = some c0 ∧ c0.cancel_callback = c.cancel_callback := by
    intro j c hj
    obtain ⟨c0, h0, hc⟩ := slot_of_updateAt _ _ _ _ _ hj
    refine ⟨c0, h0, ?_⟩
    split at hc <;> simp [hc]
  refine ⟨?_, ?_, h.allocated⟩
  · intro j c o hj hcb
    obtain ⟨c0, h0, hc⟩ := key j c hj
    exact h.live j c0 o h0 (hc.trans hcb)
  · intro i o j c hd hj hcb
    obtain ⟨c0, h0, hc⟩ := key j c hj
    exact h.owned i o j c0 hd h0 (hc.trans hcb)

theorem TokensSafe_congr (w w' : World) (h : w.TokensSafe) (hc : w'.calls = w.calls)
    (ho : w'.call_opts = w.call_opts) (hp : ∀ d ∈ w'.pending, d ∈ w.pending) :
    w'.TokensSafe := by
  refine ⟨?_, ?_, ?_⟩
  · intro j c o hj hcb
    rw [hc] at hj
    rw [ho]
    exact h.live j c o hj hcb
  · intro i o j c hd hj hcb
    rw [hc] at hj
    exact h.owned i o j c (hp _ hd) hj hcb
  · intro i o hd
    rw [ho]
    exact h.allocated i o (hp _ hd)

theorem TokensSafe_SendResponse (call : CallId) (st : GrpcStatus) (w : World)
    (h : w.TokensSafe) : (Call.SendResponse call st w).TokensSafe :=
  TokensSafe_congr _ _ (TokensSafe_setState .Completed call w h) rfl rfl (fun _ hd => hd)

theorem TokensSafe_detach (call : CallId) (o : OptsId) (st : GrpcStatus) (w : World)
    (h : w.TokensSafe)
    (hown : ∀ (j : Nat) (c : Call), w.calls[j]? = some c → c.cancel_callback = some o →
      j = call) :
    (Call.SendResponse call st
      (delete_CallOptions o (Call.ClearCancelCallback call w))).TokensSafe := by
  have hcalls : (Call.SendResponse call st
      (delete_CallOptions o (Call.ClearCancelCallback call w))).calls
      = updateAt (fun c => { c with state := .Completed, cancel_callback := none }) call
          w.calls := by
    simp [Call.SendResponse, delete_CallOptions, Call.ClearCancelCallback, updateAt_updateAt]
  have hopts : (Call.SendResponse call st
      (delete_CallOptions o (Call.ClearCancelCallback call w))).call_opts
      = updateAt (fun t => { t with deleted := true }) o w.call_opts := rfl
  have hpend : (Call.SendResponse call st
      (delete_CallOptions o (Call.ClearCancelCallback call w))).pending = w.pending := rfl
  have key : ∀ (j : Nat) (c : Call) (o' : OptsId),
      (updateAt (fun c => { c with state := .Completed, cancel_callback := none }) call
        w.calls)[j]? = some c → c.cancel_callback = some o' →
      j ≠ call ∧ w.calls[j]? = some c := by
    intro j c o' hj hcb
    obtain ⟨c0, h0, hc⟩ := slot_of_updateAt _ _ _ _ _ hj
    by_cases hji : j = call
    · simp [hji] at hc
      simp [hc] at hcb
    · simp [hji] at hc
      exact ⟨hji, by rw [hc]; exact h0⟩
  refine ⟨?_, ?_, ?_⟩
  · intro j c o' hj hcb
    rw [hcalls] at hj
    obtain ⟨hji, h0⟩ := key j c o' hj hcb
    obtain ⟨t, ht, hdel⟩ := h.live j c o' h0 hcb
    have hne : o' ≠ o := fun heq => hji (hown j c h0 (heq ▸ hcb))
    exact ⟨t, by rw [hopts, getElem?_updateAt]; simp [hne, ht], hdel⟩
  · intro i o' j c hd hj hcb
    rw [hcalls] at hj
    obtain ⟨_, h0⟩ := key j c o' hj hcb
    exact h.owned i o' j c (hpend ▸ hd) h0 hcb
  · intro i o' hd
    rw [hopts, length_updateAt]
    exact h.allocated i o' (hpend ▸ hd)

theorem TokensSafe_invoke (E : Env) (d : Done) (s : Status) (w : World) (h : w.TokensSafe)
    (hd : ∀ a o, d = .runStep a o →
      ∀ (j : Nat) (c : Call), w.calls[j]? = some c → c.cancel_callback = some o → j = a) :
    (d.invoke E s w).TokensSafe := by
  cases d with
  | respond call =>
    exact TokensSafe_SendResponse _ _ _ (TokensSafe_emit _ _ h)
  | runStep call o =>
    exact TokensSafe_detach call o _ _ (TokensSafe_emit _ _ h) (hd call o rfl)

theorem TokensSafe_Master_call (E : Env) (m : Method) (opts : Option OptsId) (call : CallId)
    (d : Done) (w : World) (h : w.TokensSafe)
    (hd : ∀ a o, d = .runStep a o → o < w.call_opts.length ∧
      ∀ (j : Nat) (c : Call), w.calls[j]? = some c → c.cancel_callback = some o → j = a) :
    (Master.call E m opts call d w).TokensSafe := by
  unfold Master.call
  cases hf : E.facade m call with
  | some s =>
    exact TokensSafe_invoke E d s _ (TokensSafe_emit _ _ h) (fun a o hdo => (hd a o hdo).2)
  | none =>
    refine ⟨h.live, ?_, ?_⟩
    · intro i o j c hmem hj hcb
      simp only [World.emit, List.mem_append, List.mem_singleton] at hmem
      rcases hmem with hmem | hmem
      · exact h.owned i o j c hmem hj hcb
      · exact (hd i o hmem.symm).2 j c hj hcb
    · intro i o hmem
      simp only [World.emit, List.mem_append, List.mem_singleton] at hmem
      rcases hmem with hmem | hmem
      · exact h.allocated i o hmem
      · exact (hd i o hmem.symm).1

theorem TokensSafe_newToken (call : CallId) (w : World) (h : w.TokensSafe) :
    (Call.SetCancelCallback call w.call_opts.length (new_CallOptions w).2).TokensSafe ∧
    ∀ (j : Nat) (c : Call),
      (Call.SetCancelCallback call w.call_opts.length (new_CallOptions w).2).calls[j]? = some c →
      c.cancel_callback = some w.call_opts.length → j = call := by
  have hcalls : (Call.SetCancelCallback call w.call_opts.length (new_CallOptions w).2).calls
      = updateAt (fun c => { c with cancel_callback := some w.call_opts.length }) call
          w.calls := rfl
  have hopts : (Call.SetCancelCallback call w.call_opts.length (new_CallOptions w).2).call_opts
      = w.call_opts ++ [{ cancelled := false, deleted := false }] := rfl
  have hpend : (Call.SetCancelCallback call w.call_opts.length (new_CallOptions w).2).pending
      = w.pending := rfl
  have hold : ∀ (j : Nat) (c : Call) (o : OptsId), w.calls[j]? = some c →
      c.cancel_callback = some o → o < w.call_opts.length := by
    intro j c o hj hcb
    obtain ⟨t, ht, _⟩ := h.live j c o hj hcb
    exact (List.getElem?_eq_some.mp ht).1
  have key : ∀ (j : Nat) (c : Call) (o : OptsId),
      (updateAt (fun c => { c with cancel_callback := some w.call_opts.length }) call
        w.calls)[j]? = some c → c.cancel_callback = some o →
      (j = call ∧ o = w.call_opts.length) ∨ (j ≠ call ∧ w.calls[j]? = some c) := by
    intro j c o hj hcb
    obtain ⟨c0, h0, hc⟩ := slot_of_updateAt _ _ _ _ _ hj
    by_cases hji : j = call
    · left
      simp [hji] at hc
      simp [hc] at hcb
      exact ⟨hji, hcb.symm⟩
    · right
      simp [hji] at hc
      exact ⟨hji, by rw [hc]; exact h0⟩
  refine ⟨⟨?_, ?_, ?_⟩, ?_⟩
  · intro j c o hj hcb
    rw [hcalls] at hj
    rw [hopts]
    rcases key j c o hj hcb with ⟨_, ho⟩ | ⟨_, h0⟩
    · subst ho
      exact ⟨_, List.getElem?_concat_length _ _, rfl⟩
    · obtain ⟨t, ht, hdel⟩ := h.live j c o h0 hcb
      exact ⟨t, by rw [List.getElem?_append_left (hold j c o h0 hcb)]; exact ht, hdel⟩
  · intro i o j c hd hj hcb
    rw [hcalls] at hj
    rw [hpend] at hd
    rcases key j c o hj hcb with ⟨_, ho⟩ | ⟨_, h0⟩
    · have := h.allocated i o hd
      rw [ho] at this
      exact absurd this (Nat.lt_irrefl _)
    · exact h.owned i o j c hd h0 hcb
  · intro i o hd
    rw [hpend] at hd
    rw [hopts, List.length_append]
    exact Nat.lt_of_lt_of_le (h.allocated i o hd) (Nat.le_add_right _ _)
  · intro j c hj hcb
    rw [hcalls] at hj
    rcases key j c _ hj hcb with ⟨hji, _⟩ | ⟨_, h0⟩
    · exact hji
    · exact absurd (hold j c _ h0 hcb) (Nat.lt_irrefl _)

theorem TokensSafe_handler (E : Env) (m : Method) (call : CallId) (w : World)
    (h : w.TokensSafe) : (handlerOf m E call w).TokensSafe := by
  by_cases hm : m = .RunStep
  · subst hm
    rw [handlerOf_RunStep]
    obtain ⟨h2, hown⟩ := TokensSafe_newToken call w h
    refine TokensSafe_EnqueueRequest _ _ (TokensSafe_Master_call E _ _ _ _ _ h2 ?_)
    intro a o hd
    cases hd
    refine ⟨?_, hown⟩
    show w.call_opts.length < (w.call_opts ++ [_]).length
    simp
  · rw [handlerOf_plain E m call w hm]
    refine TokensSafe_EnqueueRequest _ _ (TokensSafe_Master_call E _ _ _ _ _ h ?_)
    intro a o hd
    cases hd

theorem TokensSafe_step (E : Env) (S : Sys) (st : Step) (h : S.w.TokensSafe) :
    (Sys.step E S st).w.TokensSafe := by
  cases st with
  | arrive call =>
    simp only [Sys.step]
    split
    · split
      · exact TokensSafe_setState .Active call S.w h
      · exact h
    · exact h
  | dispatch =>
    simp only [Sys.step]
    split
    · exact h
    · rename_i tag rest _
      cases tag with
      | RequestReceived m call =>
        exact TokensSafe_emit _ _ (TokensSafe_handler E m call _
          (TokensSafe_emit _ _ (TokensSafe_emit _ _ h)))
      | ResponseSent call =>
        exact TokensSafe_emit _ _ (TokensSafe_emit _ _ (TokensSafe_emit _ _ h))
  | notify call status =>
    simp only [Sys.step]
    split
    · rename_i d hfind
      have hmem : d ∈ S.w.pending := List.mem_of_find?_eq_some hfind
      have h1 : ({ S.w with pending := S.w.pending.erase d } : World).TokensSafe :=
        TokensSafe_congr _ _ h rfl rfl (fun _ hd => List.mem_of_mem_erase hd)
      refine TokensSafe_invoke E d status _ h1 ?_
      intro a o hd j c hj hcb
      subst hd
      exact h.owned a o j c hmem hj hcb
    · exact h
  | cancel call =>
    simp only [Sys.step]
    split
    · split
      · exact TokensSafe_StartCancel _ _ h
      · exact h
    · exact h
  | sent call =>
    simp only [Sys.step]
    split
    · split
      · exact h
      · exact h
    · exact h

theorem TokensSafe_run (E : Env) (S : Sys) (steps : List Step) (h : S.w.TokensSafe) :
    (Sys.run E S steps).w.TokensSafe := by
  induction steps generalizing S with
  | nil => exact h
  | cons st steps ih => exact ih (Sys.step E S st) (TokensSafe_step E S st h)

theorem TokensSafe_boot : Sys.boot.w.TokensSafe :=
  TokensSafe_arm _ TokensSafe_empty

/-! ## Responses follow notifications -/

theorem Forwarded_append (E : Env) (w w' : World) (ops : List Op) (h : w.Forwarded E)
    (ht : w'.trace = w.trace ++ ops)
    (hops : responses ops = (notifications ops).map (fun p => (p.1, E.ToGrpcStatus p.2))) :
    w'.Forwarded E := by
  unfold World.Forwarded at h ⊢
  rw [ht]
  simp only [responses, notifications, List.filterMap_append, List.map_append] at h hops ⊢
  rw [h, hops]

theorem Forwarded_emit (E : Env) (w : World) (op : Op) (h : w.Forwarded E)
    (hop : responses [op] = [] ∧ notifications [op] = []) : (w.emit op).Forwarded E :=
  Forwarded_append E w _ [op] h rfl (by rw [hop.1, hop.2]; rfl)

theorem handler_responses (E : Env) (m : Method) (call : CallId) (w : World) :
    ∃ ops, (handlerOf m E call w).trace = w.trace ++ ops ∧
      responses ops = (notifications ops).map (fun p => (p.1, E.ToGrpcStatus p.2)) := by
  by_cases hm : m = .RunStep
  · subst hm
    cases hf : E.facade .RunStep call with
    | none =>
      rw [RunStep_deferred E call w hf]
      exact ⟨_, rfl, by simp [responses, notifications]⟩
    | some s =>
      rw [RunStep_immediate E call w s hf]
      exact ⟨_, rfl, by simp [responses, notifications]⟩
  · cases hf : E.facade m call with
    | none =>
      rw [plain_deferred E m call w hm hf]
      exact ⟨_, rfl, by simp [responses, notifications]⟩
    | some s =>
      rw [plain_immediate E m call w s hm hf]
      exact ⟨_, rfl, by simp [responses, notifications]⟩

theorem Forwarded_step (E : Env) (S : Sys) (st : Step) (h : S.w.Forwarded E) :
    (Sys.step E S st).w.Forwarded E := by
  cases st with
  | arrive call =>
    simp only [Sys.step]
    split
    · split
      · exact h
      · exact h
    · exact h
  | dispatch =>
    simp only [Sys.step]
    split
    · exact h
    · rename_i tag rest _
      have h0 : ((S.w.emit (.Next (some (tag, true)))).emit (.OnCompleted tag true)).Forwarded E :=
        Forwarded_emit E _ _ (Forwarded_emit E _ _ h ⟨rfl, rfl⟩) ⟨rfl, rfl⟩
      cases tag with
      | RequestReceived m call =>
        obtain ⟨ops, hops, hr⟩ := handler_responses E m call
          ((S.w.emit (.Next (some (.RequestReceived m call, true)))).emit
            (.OnCompleted (.RequestReceived m call) true))
        exact Forwarded_emit E _ _ (Forwarded_append E _ _ ops h0 hops hr) ⟨rfl, rfl⟩
      | ResponseSent call =>
        exact Forwarded_emit E _ _ h0 ⟨rfl, rfl⟩
  | notify call status =>
    simp only [Sys.step]
    split
    · rename_i d _
      have hd := Done_invoke_ops E d status { S.w with pending := S.w.pending.erase d }
      refine Forwarded_append E { S.w with pending := S.w.pending.erase d } _ _ h hd.1 ?_
      rw [hd.2.1, hd.2.2.1]
      rfl
    · exact h
  | cancel call =>
    simp only [Sys.step]
    split
    · split
      · exact Forwarded_append E S.w _ [.StartCancel _] h rfl rfl
      · exact h
    · exact h
  | sent call =>
    simp only [Sys.step]
    split
    · split
      · exact h
      · exact h
    · exact h

theorem responses_map_EnqueueRequest (m : Method) (f : Nat → CallId) (l : List Nat) :
    responses (l.map (fun k => Op.EnqueueRequest m (f k))) = [] ∧
    notifications (l.map (fun k => Op.EnqueueRequest m (f k))) = [] := by
  induction l with
  | nil => exact ⟨rfl, rfl⟩
  | cons a as ih =>
    simp only [List.map_cons]
    exact ih

theorem arm_responses (w : World) :
    responses (HandleRPCsLoop.arm w).trace = responses w.trace ∧
    notifications (HandleRPCsLoop.arm w).trace = notifications w.trace := by
  rw [arm_closed_form]
  have h := responses_map_EnqueueRequest .RunStep (fun k => w.calls.length + 2 + k)
    (List.range 100)
  simp only [responses, notifications] at h
  simp only [responses, notifications, List.filterMap_append, h.1, h.2]
  simp

theorem Forwarded_boot (E : Env) : Sys.boot.w.Forwarded E := by
  unfold World.Forwarded Sys.boot
  rw [(arm_responses World.empty).1, (arm_responses World.empty).2]
  rfl

theorem Forwarded_run (E : Env) (S : Sys) (steps : List Step) (h : S.w.Forwarded E) :
    (Sys.run E S steps).w.Forwarded E := by
  induction steps generalizing S with
  | nil => exact h
  | cons st steps ih => exact ih (Sys.step E S st) (Forwarded_step E S st h)

/-! ## The flow of calls through the slots -/

theorem handler_summary (E : Env) (m : Method) (call : CallId) (w : World) :
    ∃ F : Call → Call,
      (∀ c, (F c).method = c.method ∧ ((F c).state = c.state ∨ (F c).state = .Completed)) ∧
      (handlerOf m E call w).calls
        = updateAt F call w.calls
            ++ [{ method := m, state := .Awaiting, cancel_callback := none }] ∧
      ((∃ d : Done, d.call = call ∧ (handlerOf m E call w).pending = w.pending ++ [d] ∧
          responses (handlerOf m E call w).trace = responses w.trace) ∨
       (∃ st, (handlerOf m E call w).pending = w.pending ∧
          responses (handlerOf m E call w).trace = responses w.trace ++ [(call, st)] ∧
          ∀ c, (F c).state = .Completed)) := by
  by_cases hm : m = .RunStep
  · subst hm
    cases hf : E.facade .RunStep call with
    | none =>
      rw [RunStep_deferred E call w hf]
      exact ⟨fun c => { c with cancel_callback := some w.call_opts.length },
        fun c => ⟨rfl, Or.inl rfl⟩, rfl,
        Or.inl ⟨.runStep call w.call_opts.length, rfl, rfl, by simp [responses]⟩⟩
    | some s =>
      rw [RunStep_immediate E call w s hf]
      refine ⟨fun c => { c with state := .Completed, cancel_callback := none },
        fun c => ⟨rfl, Or.inr rfl⟩, ?_,
        Or.inr ⟨E.ToGrpcStatus s, rfl, by simp [responses], fun c => rfl⟩⟩
      simp [updateAt_updateAt]
  · cases hf : E.facade m call with
    | none =>
      rw [plain_deferred E m call w hm hf]
      refine ⟨fun c => c, fun c => ⟨rfl, Or.inl rfl⟩, ?_,
        Or.inl ⟨.respond call, rfl, rfl, by simp [responses]⟩⟩
      have : updateAt (fun c : Call => c) call w.calls = w.calls := by
        apply List.ext_getElem?
        intro j
        rw [getElem?_updateAt]
        split <;> simp
      simp [this]
    | some s =>
      rw [plain_immediate E m call w s hm hf]
      exact ⟨fun c => { c with state := .Completed }, fun c => ⟨rfl, Or.inr rfl⟩, rfl,
        Or.inr ⟨E.ToGrpcStatus s, rfl, by simp [responses], fun c => rfl⟩⟩

theorem invoke_summary (E : Env) (d : Done) (s : Status) (w : World) :
    ∃ F : Call → Call,
      (∀ c, (F c).method = c.method ∧ (F c).state = .Completed) ∧
      (d.invoke E s w).calls = updateAt F d.call w.calls ∧
      (d.invoke E s w).pending = w.pending ∧
      responses (d.invoke E s w).trace = responses w.trace ++ [(d.call, E.ToGrpcStatus s)] := by
  cases d with
  | respond call =>
    exact ⟨fun c => { c with state := .Completed }, fun c => ⟨rfl, rfl⟩, rfl, rfl, by
      simp [Done.invoke, Call.SendResponse, World.emit, responses, Done.call]⟩
  | runStep call o =>
    refine ⟨fun c => { c with state := .Completed, cancel_callback := none },
      fun c => ⟨rfl, rfl⟩, ?_, rfl, by
      simp [Done.invoke, Call.SendResponse, World.emit, responses, Done.call,
        Call.ClearCancelCallback, delete_CallOptions]⟩
    simp [Done.invoke, Call.SendResponse, World.emit, Done.call,
        Call.ClearCancelCallback, delete_CallOptions, updateAt_updateAt]

theorem getElem?_updateAt_append_lt {α : Type} (F : α → α) (i j : Nat) (l news : List α)
    (a : α) (h : l[j]? = some a) :
    (updateAt F i l ++ news)[j]? = some (if j = i then F a else a) := by
  have hlt : j < l.length := (List.getElem?_eq_some.mp h).1
  rw [List.getElem?_append_left (by rw [length_updateAt]; exact hlt), getElem?_updateAt]
  split <;> simp [h]

theorem requestCalls_cons_request (m : Method) (call : CallId) (rest : List Tag) :
    requestCalls (.RequestReceived m call :: rest) = call :: requestCalls rest := rfl

theorem undispatched_cons_request (m m' : Method) (call : CallId) (rest : List Tag) :
    undispatched m' (.RequestReceived m call :: rest)
      = undispatched m' rest + if m = m' then 1 else 0 := by
  simp [undispatched, List.countP_cons, Tag.isRequestFor]

theorem Flow_of_eq (S S' : Sys) (h : S.Flow) (hc : S'.w.calls = S.w.calls)
    (hp : S'.w.pending = S.w.pending) (hr : responses S'.w.trace = responses S.w.trace)
    (hu : ∀ m, undispatched m S'.cq = undispatched m S.cq)
    (hq : requestCalls S'.cq = requestCalls S.cq) (ha : S'.arrived = S.arrived) : S'.Flow := by
  refine ⟨?_, ?_, ?_, ?_, ?_⟩
  · intro m
    have := h.count m
    simp only [awaiting] at this ⊢
    rw [hc, hu]
    exact this
  · intro i hi
    rw [hc]
    exact h.filled i (ha ▸ hi)
  · rw [ha]
    exact h.nodup
  · intro i
    rw [ha, hr, hp, hq]
    exact h.flow i
  · intro i hi
    rw [hc]
    exact h.completed i (hr ▸ hi)

theorem awaiting_updateAt_filled (m : Method) (F : Call → Call) (i : Nat) (calls : List Call)
    (hF : ∀ c, (F c).method = c.method ∧ ((F c).state = c.state ∨ (F c).state = .Completed))
    (hi : ∀ c, calls[i]? = some c → c.state ≠ .Awaiting) :
    (updateAt F i calls).countP (fun c => decide (c.method = m ∧ c.state = .Awaiting))
      = calls.countP (fun c => decide (c.method = m ∧ c.state = .Awaiting)) := by
  apply countP_updateAt_same
  intro a ha
  have h1 := hi a ha
  have h2 : (F a).state ≠ .Awaiting := by
    rcases (hF a).2 with h | h
    · rw [h]; exact h1
    · rw [h]; decide
  simp [h1, h2]

theorem Flow_accept (S : Sys) (m : Method) (i : CallId) (rest : List Tag) (w' : World)
    (F : Call → Call) (h : S.Flow)
    (hF : ∀ c, (F c).method = c.method ∧ ((F c).state = c.state ∨ (F c).state = .Completed))
    (hcq : S.cq = .RequestReceived m i :: rest)
    (hcalls : w'.calls
      = updateAt F i S.w.calls ++ [{ method := m, state := .Awaiting, cancel_callback := none }])
    (hcase :
      (∃ d : Done, d.call = i ∧ w'.pending = S.w.pending ++ [d] ∧
          responses w'.trace = responses S.w.trace) ∨
      (∃ st, w'.pending = S.w.pending ∧
          responses w'.trace = responses S.w.trace ++ [(i, st)] ∧
          ∀ c, (F c).state = .Completed)) :
    Sys.Flow { w := w', cq := rest, arrived := S.arrived } := by
  have hflow := h.flow
  rw [hcq] at hflow
  have hi : i ∈ S.arrived := by
    have := hflow i
    rw [requestCalls_cons_request, List.count_cons_self] at this
    exact List.count_pos_iff.mp (by omega)
  obtain ⟨ci, hci, hst⟩ := h.filled i hi
  have hslot : ∀ c, S.w.calls[i]? = some c → c.state ≠ .Awaiting := by
    intro c hc
    rw [hci] at hc
    cases hc
    exact hst
  refine ⟨?_, ?_, h.nodup, ?_, ?_⟩
  · intro m'
    have hc := h.count m'
    rw [hcq, undispatched_cons_request] at hc
    simp only [awaiting] at hc ⊢
    rw [hcalls, List.countP_append, awaiting_updateAt_filled m' F i S.w.calls hF hslot]
    by_cases hmm : m = m'
    · simp [hmm] at hc ⊢
      omega
    · simp [hmm] at hc ⊢
      omega
  · intro j hj
    obtain ⟨c, hc, hcs⟩ := h.filled j hj
    refine ⟨if j = i then F c else c, ?_, ?_⟩
    · show w'.calls[j]? = _
      rw [hcalls]
      exact getElem?_updateAt_append_lt F i j _ _ c hc
    · split
      · rcases (hF c).2 with h1 | h1
        · rw [h1]; exact hcs
        · rw [h1]; decide
      · exact hcs
  · intro j
    have := hflow j
    rw [requestCalls_cons_request] at this
    show S.arrived.count j = _
    rcases hcase with ⟨d, hd, hp, hr⟩ | ⟨st, hp, hr, _⟩
    · rw [hr, hp]
      simp only [List.map_append, List.count_append, List.map_cons, List.map_nil, hd,
        List.count_cons, List.count_nil] at this ⊢
      omega
    · rw [hr, hp]
      simp only [List.map_append, List.count_append, List.map_cons, List.map_nil,
        List.count_cons, List.count_nil] at this ⊢
      omega
  · intro j hj
    show ∃ c, w'.calls[j]? = some c ∧ c.state = .Completed
    have hkeep : ∀ j : Nat, (∃ c : Call, S.w.calls[j]? = some c ∧ c.state = .Completed) →
        ∃ c : Call, w'.calls[j]? = some c ∧ c.state = .Completed := by
      intro j ⟨c, hc, hcs⟩
      refine ⟨if j = i then F c else c, ?_, ?_⟩
      · rw [hcalls]
        exact getElem?_updateAt_append_lt F i j _ _ c hc
      · split
        · rcases (hF c).2 with h1 | h1
          · rw [h1]; exact hcs
          · exact h1
        · exact hcs
    rcases hcase with ⟨d, _, _, hr⟩ | ⟨st, _, hr, hdone⟩
    · rw [show responses ({ w := w', cq := rest, arrived := S.arrived } : Sys).w.trace
        = responses S.w.trace from hr] at hj
      exact hkeep j (h.completed j hj)
    · rw [show responses ({ w := w', cq := rest, arrived := S.arrived } : Sys).w.trace
        = responses S.w.trace ++ [(i, st)] from hr] at hj
      simp only [List.map_append, List.mem_append, List.map_cons, List.map_nil,
        List.mem_singleton] at hj
      rcases hj with hj | hj
      · exact hkeep j (h.completed j hj)
      · subst hj
        refine ⟨F ci, ?_, hdone ci⟩
        rw [hcalls]
        simpa using getElem?_updateAt_append_lt F j j _ _ ci hci

theorem count_map_erase (pending : List Done) (d : Done) (hd : d ∈ pending) (j : CallId) :
    (pending.map Done.call).count j
      = ((pending.erase d).map Done.call).count j + if d.call = j then 1 else 0 := by
  have hp := ((List.perm_cons_erase hd).map Done.call).count_eq j
  rw [hp, List.map_cons, List.count_cons]
  simp

theorem Flow_answer (S : Sys) (d : Done) (st : GrpcStatus) (w' : World) (F : Call → Call)
    (h : S.Flow) (hd : d ∈ S.w.pending)
    (hF : ∀ c, (F c).method = c.method ∧ (F c).state = .Completed)
    (hcalls : w'.calls = updateAt F d.call S.w.calls)
    (hpend : w'.pending = S.w.pending.erase d)
    (hresp : responses w'.trace = responses S.w.trace ++ [(d.call, st)]) :
    Sys.Flow { S with w := w' } := by
  have hi : d.call ∈ S.arrived := by
    have := h.flow d.call
    have h2 := count_map_erase S.w.pending d hd d.call
    simp only [if_true] at h2
    exact List.count_pos_iff.mp (by omega)
  obtain ⟨ci, hci, hst⟩ := h.filled d.call hi
  have hslot : ∀ c, S.w.calls[d.call]? = some c → c.state ≠ .Awaiting := by
    intro c hc
    rw [hci] at hc
    cases hc
    exact hst
  have hget : ∀ (j : Nat) (c : Call), S.w.calls[j]? = some c →
      w'.calls[j]? = some (if j = d.call then F c else c) := by
    intro j c hc
    rw [hcalls]
    simpa using getElem?_updateAt_append_lt F d.call j S.w.calls [] c hc
  refine ⟨?_, ?_, h.nodup, ?_, ?_⟩
  · intro m
    have hc := h.count m
    simp only [awaiting] at hc ⊢
    rw [hcalls, awaiting_updateAt_filled m F d.call S.w.calls
      (fun c => ⟨(hF c).1, Or.inr (hF c).2⟩) hslot]
    exact hc
  · intro j hj
    obtain ⟨c, hc, hcs⟩ := h.filled j hj
    refine ⟨_, hget j c hc, ?_⟩
    split
    · rw [(hF c).2]; decide
    · exact hcs
  · intro j
    have := h.flow j
    have h2 := count_map_erase S.w.pending d hd j
    show S.arrived.count j = _
    rw [hresp, hpend]
    simp only [List.map_append, List.count_append, List.map_cons, List.map_nil,
      List.count_cons, List.count_nil] at this ⊢
    rw [h2] at this
    by_cases hdj : d.call = j
    · simp [hdj] at this ⊢
      omega
    · simp [hdj] at this ⊢
      omega
  · intro j hj
    show ∃ c, w'.calls[j]? = some c ∧ c.state = .Completed
    rw [show responses ({ S with w := w' } : Sys).w.trace
      = responses S.w.trace ++ [(d.call, st)] from hresp] at hj
    simp only [List.map_append, List.mem_append, List.map_cons, List.map_nil,
      List.mem_singleton] at hj
    rcases hj with hj | hj
    · obtain ⟨c, hc, hcs⟩ := h.completed j hj
      refine ⟨_, hget j c hc, ?_⟩
      split
      · exact (hF c).2
      · exact hcs
    · subst hj
      exact ⟨_, hget _ ci hci, by simp [(hF ci).2]⟩

theorem Flow_arrive (S : Sys) (call : CallId) (c : Call) (h : S.Flow)
    (hc : S.w.calls[call]? = some c) (hs : c.state = .Awaiting) :
    Sys.Flow
      { w := { S.w with calls := updateAt (fun c => { c with state := .Active }) call S.w.calls }
        cq := S.cq ++ [.RequestReceived c.method call]
        arrived := S.arrived ++ [call] } := by
  have hnew : call ∉ S.arrived := by
    intro hmem
    obtain ⟨c', hc', hs'⟩ := h.filled call hmem
    rw [hc] at hc'
    cases hc'
    exact hs' hs
  have hget : ∀ (j : Nat) (a : Call), S.w.calls[j]? = some a →
      (updateAt (fun c : Call => { c with state := .Active }) call S.w.calls)[j]?
        = some (if j = call then { a with state := .Active } else a) := by
    intro j a ha
    simpa using getElem?_updateAt_append_lt (fun c : Call => { c with state := .Active })
      call j S.w.calls [] a ha
  refine ⟨?_, ?_, ?_, ?_, ?_⟩
  · intro m
    have hcount := h.count m
    simp only [awaiting, undispatched, List.countP_append] at hcount ⊢
    by_cases hm : c.method = m
    · have := countP_updateAt_drop (fun c : Call => decide (c.method = m ∧ c.state = .Awaiting))
        (fun c => { c with state := .Active }) call S.w.calls c hc (by simp [hm, hs])
        (by simp)
      simp [List.countP_cons, Tag.isRequestFor, hm] at this hcount ⊢
      omega
    · have := countP_updateAt_same (fun c : Call => decide (c.method = m ∧ c.state = .Awaiting))
        (fun c => { c with state := .Active }) call S.w.calls (by
          intro a ha
          rw [hc] at ha
          cases ha
          simp [hm])
      simp [List.countP_cons, Tag.isRequestFor, hm] at this hcount ⊢
      omega
  · intro j hj
    simp only [List.mem_append, List.mem_singleton] at hj
    rcases hj with hj | hj
    · obtain ⟨a, ha, has⟩ := h.filled j hj
      refine ⟨_, hget j a ha, ?_⟩
      split
      · simp
      · exact has
    · subst hj
      exact ⟨_, hget _ c hc, by simp⟩
  · exact List.nodup_append.mpr ⟨h.nodup, List.nodup_singleton _, by simpa using hnew⟩
  · intro j
    have := h.flow j
    simp only [requestCalls, List.filterMap_append, List.count_append, List.filterMap_cons,
      List.filterMap_nil, List.count_cons, List.count_nil] at this ⊢
    omega
  · intro j hj
    obtain ⟨a, ha, has⟩ := h.completed j hj
    refine ⟨_, hget j a ha, ?_⟩
    split
    · rename_i hjc
      subst hjc
      rw [hc] at ha
      cases ha
      rw [hs] at has
      cases has
    · exact has

theorem Flow_step (E : Env) (S : Sys) (st : Step) (h : S.Flow) : (Sys.step E S st).Flow := by
  cases st with
  | arrive call =>
    simp only [Sys.step]
    split
    · rename_i c hc
      split
      · rename_i hs
        exact Flow_arrive S call c h hc hs
      · exact h
    · exact h
  | dispatch =>
    simp only [Sys.step]
    split
    · exact h
    · rename_i tag rest hcq
      cases tag with
      | RequestReceived m call =>
        obtain ⟨F, hF, hcalls, hcase⟩ := handler_summary E m call
          ((S.w.emit (.Next (some (.RequestReceived m call, true)))).emit
            (.OnCompleted (.RequestReceived m call) true))
        refine Flow_accept S m call rest _ F h hF hcq hcalls ?_
        have hr0 : responses ((S.w.emit (.Next (some (.RequestReceived m call, true)))).emit
            (.OnCompleted (.RequestReceived m call) true)).trace = responses S.w.trace := by
          simp [World.emit, responses]
        rw [hr0] at hcase
        rcases hcase with ⟨d, hd, hp, hr⟩ | ⟨st, hp, hr, hdone⟩
        · refine Or.inl ⟨d, hd, hp, ?_⟩
          rw [← hr]
          simp [HandleRPCsLoop.body, Tag.OnCompleted, World.emit, responses]
        · refine Or.inr ⟨st, hp, ?_, hdone⟩
          rw [← hr]
          simp [HandleRPCsLoop.body, Tag.OnCompleted, World.emit, responses]
      | ResponseSent call =>
        refine Flow_of_eq S _ h rfl rfl ?_ ?_ ?_ rfl
        · simp [HandleRPCsLoop.body, Tag.OnCompleted, World.emit, responses]
        · intro m
          rw [hcq]
          simp [undispatched, List.countP_cons, Tag.isRequestFor]
        · rw [hcq]
          rfl
  | notify call status =>
    simp only [Sys.step]
    split
    · rename_i d hfind
      obtain ⟨F, hF, hcalls, hpend, hresp⟩ :=
        invoke_summary E d status { S.w with pending := S.w.pending.erase d }
      exact Flow_answer S d _ _ F h (List.mem_of_find?_eq_some hfind) hF hcalls hpend hresp
    · exact h
  | cancel call =>
    simp only [Sys.step]
    split
    · split
      · exact Flow_of_eq S _ h rfl rfl (by simp [CallOptions.StartCancel, responses])
          (fun _ => rfl) rfl rfl
      · exact h
    · exact h
  | sent call =>
    simp only [Sys.step]
    split
    · split
      · refine Flow_of_eq S _ h rfl rfl rfl ?_ ?_ rfl
        · intro m
          simp [undispatched, Tag.isRequestFor]
        · simp [requestCalls]
      · exact h
    · exact h

theorem Flow_boot : Sys.boot.Flow := by
  have hcalls : Sys.boot.w.calls
      = [] ++ ([({ method := .CreateSession, state := .Awaiting, cancel_callback := none } : Call),
               { method := .ExtendSession, state := .Awaiting, cancel_callback := none }]
            ++ List.replicate 100
                ({ method := .RunStep, state := .Awaiting, cancel_callback := none } : Call)
            ++ [{ method := .CloseSession, state := .Awaiting, cancel_callback := none },
                { method := .ListDevices, state := .Awaiting, cancel_callback := none },
                { method := .Reset, state := .Awaiting, cancel_callback := none }]) := by
    show (HandleRPCsLoop.arm World.empty).calls = _
    rw [arm_closed_form]
    rfl
  have hresp : responses Sys.boot.w.trace = [] := (arm_responses World.empty).1
  have hpend : Sys.boot.w.pending = [] := by
    show (HandleRPCsLoop.arm World.empty).pending = _
    rw [arm_closed_form]
    rfl
  refine ⟨?_, ?_, ?_, ?_, ?_⟩
  · intro m
    simp only [awaiting]
    rw [hcalls, armSlots_awaiting 100 m [], standing_eq]
    simp [Sys.boot, undispatched]
  · intro i hi
    simp [Sys.boot] at hi
  · simp [Sys.boot]
  · intro i
    rw [hresp, hpend]
    simp [Sys.boot, requestCalls]
  · intro i hi
    rw [hresp] at hi
    simp at hi

theorem Flow_run (E : Env) (S : Sys) (steps : List Step) (h : S.Flow) :
    (Sys.run E S steps).Flow := by
  induction steps generalizing S with
  | nil => exact h
  | cons st steps ih => exact ih (Sys.step E S st) (Flow_step E S st h)

/-! ## The service in every reachable state -/

theorem pending_unique (S : Sys) (h : S.Flow) (d d' : Done) (hd : d ∈ S.w.pending)
    (hd' : d' ∈ S.w.pending) (hcall : d'.call = d.call) : d' = d := by
  by_contra hne
  have h1 := count_map_erase S.w.pending d hd d.call
  simp only [if_true] at h1
  have h2 : d' ∈ S.w.pending.erase d := (List.mem_erase_of_ne hne).mpr hd'
  have h3 : 0 < ((S.w.pending.erase d).map Done.call).count d.call :=
    List.count_pos_iff.mpr (hcall ▸ List.mem_map_of_mem Done.call h2)
  have h4 := h.flow d.call
  have h5 : S.arrived.count d.call ≤ 1 := List.nodup_iff_count_le_one.mp h.nodup d.call
  omega

set_option maxRecDepth 100000 in
/-- C1, as stated, fails: after the startup arming, the arrival of one CreateSession
call fills slot 0, the only CreateSession slot; in the state reached, before the loop
has dispatched the call, CreateSession has no Awaiting slot. -/
theorem no_Awaiting_slot_between_arrival_and_dispatch :
    (Sys.run Env.deferred Sys.boot [.arrive 0]).arrived = [0] ∧
    (Sys.run Env.deferred Sys.boot [.arrive 0]).cq = [.RequestReceived .CreateSession 0] ∧
    awaiting .CreateSession (Sys.run Env.deferred Sys.boot [.arrive 0]).w = 0 := by
  decide

/-- C1, amended: in every state reachable after the startup arming, under any
interleaving of arrivals, dispatches, notifications, cancellations and send reports, for
each of the six methods the Awaiting slots and the arrived calls not yet dispatched add
up to the method's standing count (100 for RunStep, 1 for the others); so a method has
an Awaiting slot whenever none of its arrived calls waits for dispatch, and RunStep has
one whenever fewer than 100 do. -/
theorem awaiting_plus_undispatched_eq_standing (E : Env) (steps : List Step) (m : Method) :
    awaiting m (Sys.run E Sys.boot steps).w + undispatched m (Sys.run E Sys.boot steps).cq
      = standing m ∧
    1 ≤ standing m ∧
    (undispatched m (Sys.run E Sys.boot steps).cq = 0 →
      1 ≤ awaiting m (Sys.run E Sys.boot steps).w) ∧
    (undispatched .RunStep (Sys.run E Sys.boot steps).cq < 100 →
      1 ≤ awaiting .RunStep (Sys.run E Sys.boot steps).w) := by
  have h := (Flow_run E Sys.boot steps Flow_boot).count
  have hs : 1 ≤ standing m := by cases m <;> decide
  refine ⟨h m, hs, ?_, ?_⟩
  · intro h0
    have := h m
    omega
  · intro h0
    have := h .RunStep
    have h100 : standing .RunStep = 100 := rfl
    omega

theorem run_append (E : Env) (S : Sys) (a b : List Step) :
    Sys.run E S (a ++ b) = Sys.run E (Sys.run E S a) b := by
  simp [Sys.run, List.foldl_append]

theorem run_dispatch_drains (E : Env) (n : Nat) (S : Sys) (h : S.cq.length = n) :
    (Sys.run E S (List.replicate n .dispatch)).cq = [] := by
  induction n generalizing S with
  | zero => simpa [Sys.run] using List.length_eq_zero.mp h
  | succ n ih =>
    rw [List.replicate_succ]
    show (Sys.run E (Sys.step E S .dispatch) (List.replicate n .dispatch)).cq = []
    apply ih
    cases hcq : S.cq with
    | nil => simp [hcq] at h
    | cons tag rest =>
      simp only [Sys.step, hcq]
      simpa [hcq] using h

theorem rearmed_after_drain (E : Env) (steps : List Step) (m : Method) :
    awaiting m
        (Sys.run E (Sys.run E Sys.boot steps)
          (List.replicate (Sys.run E Sys.boot steps).cq.length .dispatch)).w
      = standing m := by
  have hdrain := run_dispatch_drains E _ (Sys.run E Sys.boot steps) rfl
  have h := (Flow_run E Sys.boot
    (steps ++ List.replicate (Sys.run E Sys.boot steps).cq.length .dispatch) Flow_boot).count m
  rw [run_append, hdrain] at h
  simpa [undispatched] using h

/-- C8: for every number `n` of RunStep calls that arrived, once the loop has dispatched
them all and the `Master` has invoked every notifier it was given (each at most once, by
construction): each call was bound to a slot of its own, exactly `n` responses were
sent, exactly one for each of the calls, each with the conversion of the status its
notifier reported, and every one of the slots is Completed.  The number of calls is not
limited by the 100 standing slots: in every reachable state, once the loop has
dispatched the events then in the queue, RunStep has 100 Awaiting slots again. -/
theorem every_delivered_call_gets_one_response (E : Env) (steps : List Step) (n : Nat)
    (hn : (Sys.run E Sys.boot steps).arrived.length = n)
    (hm : ∀ i ∈ (Sys.run E Sys.boot steps).arrived,
      ((Sys.run E Sys.boot steps).w.calls[i]?).map Call.method = some .RunStep)
    (hq : requestCalls (Sys.run E Sys.boot steps).cq = [] ∧
      (Sys.run E Sys.boot steps).w.pending = []) :
    (Sys.run E Sys.boot steps).arrived.Nodup ∧
    (responses (Sys.run E Sys.boot steps).w.trace).length = n ∧
    ((responses (Sys.run E Sys.boot steps).w.trace).map Prod.fst).Perm
      (Sys.run E Sys.boot steps).arrived ∧
    (∀ i ∈ (Sys.run E Sys.boot steps).arrived,
      ((responses (Sys.run E Sys.boot steps).w.trace).map Prod.fst).count i = 1) ∧
    responses (Sys.run E Sys.boot steps).w.trace
      = (notifications (Sys.run E Sys.boot steps).w.trace).map
          (fun p => (p.1, E.ToGrpcStatus p.2)) ∧
    (∀ i ∈ (Sys.run E Sys.boot steps).arrived,
      ∃ c, (Sys.run E Sys.boot steps).w.calls[i]? = some c ∧ c.method = .RunStep ∧
        c.state = .Completed) ∧
    (∀ steps' : List Step,
      awaiting .RunStep
          (Sys.run E (Sys.run E Sys.boot steps')
            (List.replicate (Sys.run E Sys.boot steps').cq.length .dispatch)).w
        = 100) := by
  have hF := Flow_run E Sys.boot steps Flow_boot
  have hFw := Forwarded_run E Sys.boot steps (Forwarded_boot E)
  have hcount : ∀ i : CallId, (Sys.run E Sys.boot steps).arrived.count i
      = ((responses (Sys.run E Sys.boot steps).w.trace).map Prod.fst).count i := by
    intro i
    have := hF.flow i
    rw [hq.1, hq.2] at this
    simpa using this
  have hperm : ((responses (Sys.run E Sys.boot steps).w.trace).map Prod.fst).Perm
      (Sys.run E Sys.boot steps).arrived :=
    List.perm_iff_count.mpr (fun i => (hcount i).symm)
  refine ⟨hF.nodup, ?_, hperm, ?_, hFw, ?_, fun steps' => rearmed_after_drain E steps' .RunStep⟩
  · rw [← hn, ← hperm.length_eq, List.length_map]
  · intro i hi
    rw [← hcount i]
    exact List.count_eq_one_of_mem hF.nodup hi
  · intro i hi
    obtain ⟨c, hc, hcs⟩ := hF.completed i (hperm.mem_iff.mpr hi)
    have := hm i hi
    rw [hc] at this
    exact ⟨c, hc, by simpa using this, hcs⟩

set_option maxHeartbeats 4000000 in
/-- C8, at a concrete input: 150 RunStep calls against 100 standing slots, with a
`Master` that retains every notifier and invokes each once; all 150 calls are answered. -/
theorem every_delivered_call_gets_one_response_witness :
    (Sys.run Env.deferred Sys.boot Sys.flood150).arrived.length = 150 ∧
    (responses (Sys.run Env.deferred Sys.boot Sys.flood150).w.trace).length = 150 ∧
    (Sys.run Env.deferred Sys.boot Sys.flood150).arrived.Nodup := by
  have hn : (Sys.run Env.deferred Sys.boot Sys.flood150).arrived.length = 150 := by
    decide!
  have hm : ∀ i ∈ (Sys.run Env.deferred Sys.boot Sys.flood150).arrived,
      ((Sys.run Env.deferred Sys.boot Sys.flood150).w.calls[i]?).map Call.method
        = some .RunStep := by
    decide!
  have hq : requestCalls (Sys.run Env.deferred Sys.boot Sys.flood150).cq = [] ∧
      (Sys.run Env.deferred Sys.boot Sys.flood150).w.pending = [] := by
    decide!
  have h := every_delivered_call_gets_one_response Env.deferred Sys.flood150 150 hn hm hq
  exact ⟨hn, h.2.1, h.1⟩

/-- C9: the notifier `RunStepHandler` passes to the `Master` captures the call and the
token the handler created; its body deregisters the call's cancel callback, then frees
the token, then sends the response, in that order, and leaves the slot Completed with no
callback registered.  In every reachable state every registered cancel callback refers
to a token that exists and has not been freed; and when the `Master` invokes the
retained notifier of a RunStep call, in the state that results the token is freed, the
slot is Completed, and no slot has a cancel callback referring to that token. -/
theorem RunStep_notifier_detaches_before_free (E : Env) (call : CallId) (w : World) :
    Op.MasterCall .RunStep call (some w.call_opts.length) (.runStep call w.call_opts.length)
        ∈ newOps w (RunStepHandler E call w) ∧
    (∀ (o : OptsId) (s : Status) (w' : World),
        newOps w' ((Done.runStep call o).invoke E s w')
          = [.Notified call s, .ClearCancelCallback call, .DeleteCallOptions o,
             .SendResponse call (E.ToGrpcStatus s)] ∧
        (∀ c, ((Done.runStep call o).invoke E s w').calls[call]? = some c →
          c.state = .Completed ∧ c.cancel_callback = none) ∧
        (∀ t, ((Done.runStep call o).invoke E s w').call_opts[o]? = some t →
          t.deleted = true)) ∧
    (∀ (steps : List Step) (j : Nat) (c : Call) (o : OptsId),
        (Sys.run E Sys.boot steps).w.calls[j]? = some c → c.cancel_callback = some o →
        ∃ t, (Sys.run E Sys.boot steps).w.call_opts[o]? = some t ∧ t.deleted = false) ∧
    (∀ (steps : List Step) (o : OptsId) (s : Status),
        Done.runStep call o ∈ (Sys.run E Sys.boot steps).w.pending →
        (Sys.step E (Sys.run E Sys.boot steps) (.notify call s)).w
          = (Done.runStep call o).invoke E s
              { (Sys.run E Sys.boot steps).w with
                pending := (Sys.run E Sys.boot steps).w.pending.erase (.runStep call o) } ∧
        (∃ t, (Sys.step E (Sys.run E Sys.boot steps) (.notify call s)).w.call_opts[o]?
            = some t ∧ t.deleted = true) ∧
        ∀ (j : Nat) (c : Call),
          (Sys.step E (Sys.run E Sys.boot steps) (.notify call s)).w.calls[j]? = some c →
          c.cancel_callback ≠ some o) := by
  have hinv : ∀ (o : OptsId) (s : Status) (w' : World),
      ((Done.runStep call o).invoke E s w').calls
        = updateAt (fun c => { c with state := .Completed, cancel_callback := none }) call
            w'.calls ∧
      ((Done.runStep call o).invoke E s w').call_opts
        = updateAt (fun t => { t with deleted := true }) o w'.call_opts := by
    intro o s w'
    constructor
    · simp [Done.invoke, Call.SendResponse, World.emit, Call.ClearCancelCallback,
        delete_CallOptions, updateAt_updateAt]
    · rfl
  refine ⟨?_, ?_, ?_, ?_⟩
  · have hR : RunStepHandler E call w = handlerOf .RunStep E call w := rfl
    rw [hR]
    cases hf : E.facade .RunStep call with
    | none =>
      rw [RunStep_deferred E call w hf]
      simp [newOps]
    | some s =>
      rw [RunStep_immediate E call w s hf]
      simp [newOps]
  · intro o s w'
    refine ⟨?_, ?_, ?_⟩
    · simp [newOps, Done.invoke, Call.SendResponse, World.emit, Call.ClearCancelCallback,
        delete_CallOptions]
    · intro c hc
      rw [(hinv o s w').1] at hc
      obtain ⟨c0, _, hc0⟩ := slot_of_updateAt _ _ _ _ _ hc
      simp at hc0
      simp [hc0]
    · intro t ht
      rw [(hinv o s w').2] at ht
      obtain ⟨t0, _, ht0⟩ := slot_of_updateAt _ _ _ _ _ ht
      simp at ht0
      simp [ht0]
  · intro steps j c o hj hcb
    exact (TokensSafe_run E Sys.boot steps TokensSafe_boot).live j c o hj hcb
  · intro steps o s hmem
    have hF := Flow_run E Sys.boot steps Flow_boot
    have hT := TokensSafe_run E Sys.boot steps TokensSafe_boot
    have hstep : (Sys.step E (Sys.run E Sys.boot steps) (.notify call s)).w
        = (Done.runStep call o).invoke E s
            { (Sys.run E Sys.boot steps).w with
              pending := (Sys.run E Sys.boot steps).w.pending.erase (.runStep call o) } := by
      simp only [Sys.step]
      split
      · rename_i d hfind
        have hd : d ∈ (Sys.run E Sys.boot steps).w.pending := List.mem_of_find?_eq_some hfind
        have hdc : d.call = call := by simpa using List.find?_some hfind
        have : d = .runStep call o :=
          pending_unique _ hF (.runStep call o) d hmem hd hdc
        rw [this]
      · rename_i hnone
        have := List.find?_eq_none.mp hnone _ hmem
        simp [Done.call] at this
    have hlt : o < (Sys.run E Sys.boot steps).w.call_opts.length := hT.allocated call o hmem
    have hsafe := TokensSafe_step E (Sys.run E Sys.boot steps) (.notify call s) hT
    have hopt : ∃ t, (Sys.step E (Sys.run E Sys.boot steps) (.notify call s)).w.call_opts[o]?
        = some t ∧ t.deleted = true := by
      rw [hstep, (hinv o s _).2]
      obtain ⟨t0, ht0⟩ : ∃ t0, (Sys.run E Sys.boot steps).w.call_opts[o]? = some t0 :=
        ⟨_, List.getElem?_eq_getElem hlt⟩
      exact ⟨{ t0 with deleted := true }, by simp [getElem?_updateAt, ht0], rfl⟩
    refine ⟨hstep, hopt, ?_⟩
    intro j c hj hcb
    obtain ⟨t, ht, hdel⟩ := hsafe.live j c o hj hcb
    obtain ⟨t', ht', hdel'⟩ := hopt
    rw [ht] at ht'
    cases ht'
    rw [hdel] at hdel'
    cases hdel'

end tensorflow
